import Mathlib

/-!
The file server `go-simple-http3-server`: path resolution, file serving and upload handlers.

A shallow embedding of `http3-server.go` (`fileHandler`, `uploadHandler`) together with the
Unix versions of the `path/filepath` and `strings` functions the two handlers call
(`filepath.Clean`, `filepath.Join`, `filepath.Base`, `strings.HasPrefix`).

Go strings are byte strings; the path functions only ever compare bytes against the ASCII
bytes `/` and `.`, which never occur inside a multi-byte UTF-8 sequence, so a path is
modelled as a Lean `String` (a list of characters).
-/

namespace Http3Server

/-! ## `path/filepath` (Unix) -/

/-- The Go `os.IsPathSeparator` on Unix: the only separator is `/`. -/
def IsPathSeparator (c : Char) : Bool := c == '/'

/-- The backtracking loop of `filepath.Clean`,
`for out.w > dotdot && !os.IsPathSeparator(out.index(out.w)) { out.w-- }`,
as a function of the current `out.w`; it returns the final `out.w`. -/
def backtrack (buf : List Char) (dotdot : Nat) : Nat → Nat
  | 0 => 0
  | w + 1 =>
    if w + 1 > dotdot && !IsPathSeparator (buf.getD (w + 1) '/') then backtrack buf dotdot w
    else w + 1

/-- The main loop `for r < n { switch ... }` of `filepath.Clean`. The unread input `path[r:]`
is the list argument, `out` is the written part `buf[:w]` of the lazy buffer, and the first
argument bounds the number of iterations (every iteration reads at least one byte). -/
def cleanLoop (rooted : Bool) : Nat → List Char → List Char → Nat → List Char
  | 0, _, out, _ => out
  | _ + 1, [], out, _ => out
  | fuel + 1, c :: rest, out, dotdot =>
    if IsPathSeparator c then
      -- empty path element
      cleanLoop rooted fuel rest out dotdot
    else if c == '.' && (rest.isEmpty || IsPathSeparator (rest.headD '/')) then
      -- . element
      cleanLoop rooted fuel rest out dotdot
    else if c == '.' && rest.headD '/' == '.' && !rest.isEmpty
        && (rest.tail.isEmpty || IsPathSeparator (rest.tail.headD '/')) then
      -- .. element: remove to last separator
      if out.length > dotdot then
        -- can backtrack
        cleanLoop rooted fuel rest.tail (out.take (backtrack out dotdot (out.length - 1))) dotdot
      else if !rooted then
        -- cannot backtrack, but not rooted, so append .. element
        let out1 := if out.length > 0 then out ++ ['/'] else out
        let out2 := out1 ++ ['.', '.']
        cleanLoop rooted fuel rest.tail out2 out2.length
      else
        cleanLoop rooted fuel rest.tail out dotdot
    else
      -- real path element: add slash if needed, then copy the element
      let out1 :=
        if (rooted && out.length != 1) || (!rooted && out.length != 0) then out ++ ['/'] else out
      cleanLoop rooted fuel ((c :: rest).dropWhile (fun b => !IsPathSeparator b))
        (out1 ++ (c :: rest).takeWhile (fun b => !IsPathSeparator b)) dotdot

/-- The body of `filepath.Clean` on the bytes of the path (no volume name on Unix,
`FromSlash` is the identity). -/
def cleanChars (path : List Char) : List Char :=
  if path.isEmpty then ['.']
  else
    let rooted := IsPathSeparator (path.headD '.')
    let out :=
      if rooted then cleanLoop rooted path.length path.tail ['/'] 1
      else cleanLoop rooted path.length path [] 0
    -- Turn empty string into "."
    if out.length == 0 then ['.'] else out

/-- The Go `filepath.Clean`. -/
def Clean (path : String) : String := String.mk (cleanChars path.data)

/-- The Go `strings.Join(elems, sep)`. -/
def stringsJoin : List String → String → String
  | [], _ => ""
  | [e], _ => e
  | e :: rest, sep => e ++ sep ++ stringsJoin rest sep

/-- The Go `filepath.Join` on Unix (`join` of `path_unix.go`): the elements from the first
non-empty one on are joined with `/` and cleaned; all elements empty gives the empty string. -/
def joinElems : List String → String
  | [] => ""
  | e :: rest => if e ≠ "" then Clean (stringsJoin (e :: rest) "/") else joinElems rest

/-- The Go `filepath.Join(a, b)`. -/
def Join (a b : String) : String := joinElems [a, b]

/-- The loop `for len(path) > 0 && os.IsPathSeparator(path[len(path)-1]) { path = path[0:len(path)-1] }`
of `filepath.Base`, as a function of the current length; it returns the final length. -/
def stripTrailing (path : List Char) : Nat → Nat
  | 0 => 0
  | n + 1 => if IsPathSeparator (path.getD n '.') then stripTrailing path n else n + 1

/-- The loop `for i >= 0 && !os.IsPathSeparator(path[i]) { i-- }` of `filepath.Base`, as a
function of `i + 1`; it returns the final `i + 1` (so `0` stands for `i = -1`). -/
def lastElemStart (path : List Char) : Nat → Nat
  | 0 => 0
  | i + 1 => if !IsPathSeparator (path.getD i '/') then lastElemStart path i else i + 1

/-- The body of `filepath.Base` on the bytes of the path. -/
def baseChars (path : List Char) : List Char :=
  if path.isEmpty then ['.']
  else
    -- Strip trailing slashes.
    let path1 := path.take (stripTrailing path path.length)
    -- Find the last element
    let path2 := path1.drop (lastElemStart path1 path1.length)
    -- If empty now, it had only slashes.
    if path2.isEmpty then ['/'] else path2

/-- The Go `filepath.Base`. -/
def Base (path : String) : String := String.mk (baseChars path.data)

/-- The Go `strings.HasPrefix`: `len(s) >= len(prefix) && s[:len(prefix)] == prefix`. -/
def HasPrefix (s pre : String) : Bool :=
  decide (s.data.length ≥ pre.data.length) && (s.data.take pre.data.length == pre.data)

/-! ## Constants of the server -/

/-- Directory to browse/upload files. -/
def baseDir : String := "./files"

/-- The Go `http.MethodGet`. -/
def MethodGet : String := "GET"

/-- The Go `http.MethodPost`. -/
def MethodPost : String := "POST"

/-! ## `net/http`, `os` and `io` as seen by the handlers -/

/-- What a handler leaves in its `http.ResponseWriter`: the status code, the `Content-Type`
header the handler (or `http.Error`) sets, empty when it is left to `net/http`, and the bytes
written to the body. -/
structure Response where
  status : Nat
  contentType : String
  body : String
  deriving DecidableEq, Repr

/-- A fresh `http.ResponseWriter`: nothing written, status 200 on the first write. -/
def newWriter : Response := ⟨200, "", ""⟩

/-- The result of `w.Header().Set("Content-Type", v)`. -/
def setContentType (w : Response) (v : String) : Response := { w with contentType := v }

/-- The result of `fmt.Fprintf(w, ...)` / `fmt.Fprintln(w, ...)` once the text is formatted. -/
def fprint (w : Response) (text : String) : Response := { w with body := w.body ++ text }

/-- The Go `http.Error(w, msg, code)`: plain-text content type, the status code, and the
message followed by a newline. -/
def httpError (w : Response) (msg : String) (code : Nat) : Response :=
  fprint { setContentType w "text/plain; charset=utf-8" with status := code } (msg ++ "\n")

/-- The Go `http.NotFound(w, r)`. -/
def httpNotFound (w : Response) : Response := httpError w "404 page not found" 404

/-- An `error` returned by the `os` package: what `os.IsNotExist` says of it, and its text. -/
structure OsError where
  notExist : Bool
  text : String
  deriving DecidableEq, Repr

/-- The part of `os.FileInfo` the handler reads. -/
structure FileInfo where
  IsDir : Bool
  deriving DecidableEq, Repr

/-- The part of `os.DirEntry` the handler reads. -/
structure DirEntry where
  Name : String
  deriving DecidableEq, Repr

/-- The part of `multipart.FileHeader` the handler reads. -/
structure FileHeader where
  Filename : String
  deriving DecidableEq, Repr

/-- The part of `*http.Request` the handlers read: the method, `r.URL.Path`, whether
`r.ParseMultipartForm(10 << 20)` returns an error (the argument bounds the memory the parser
uses, not the size of the body), and the part named `file` of the multipart form as the client
sent it: its bytes and the filename parameter of its Content-Disposition, `none` when the form
has no such part. -/
structure Request where
  Method : String
  URLPath : String
  parseFails : Bool
  filePart : Option (List Nat × String)
  deriving DecidableEq, Repr

/-- The Go `r.FormFile("file")` on a parsed form: `mime/multipart` keeps a part as a file only
when its filename is not empty (otherwise it is a plain value), and the header it builds holds
`filepath.Base` of that filename (`Part.FileName`). The result is the bytes of the file and its
header; `none` stands for the error `http.ErrMissingFile`. -/
def FormFile (r : Request) : Option (List Nat × FileHeader) :=
  match r.filePart with
  | none => none
  | some (content, filename) =>
    if filename = "" then none else some (content, ⟨Base filename⟩)

/-- The calls a handler makes on the request body and on the filesystem, in order. -/
inductive FsOp where
  | stat (path : String)
  | readDir (path : String)
  | serveFile (path : String)
  | parseMultipartForm
  | formFile
  | create (path : String)
  | copy (path : String)
  deriving DecidableEq, Repr

/-- The filesystem as `fileHandler` sees it: the results of `os.Stat`, `os.ReadDir`, and the
response `http.ServeFile` writes. -/
structure FsEnv where
  Stat : String → Except OsError FileInfo
  ReadDir : String → Except OsError (List DirEntry)
  ServeFile : Request → String → Response

/-- The regular files on disk: the content stored at each path, `none` where there is no file. -/
abbrev Disk := String → Option (List Nat)

/-- The filesystem as `uploadHandler` sees it: the error `os.Create` returns for a path, if
any, and the fault of `io.Copy`: `none` when it copies everything, `some k` when it returns an
error after `k` bytes reached the destination. -/
structure UploadEnv where
  Create : String → Option OsError
  copyFault : Option Nat

/-! ## The handlers -/

/-- The loop of `fileHandler` that writes one list item per directory entry. -/
def writeEntries (urlPath : String) : List DirEntry → Response → Response
  | [], w => w
  | file :: files, w =>
    writeEntries urlPath files
      (fprint w ("<li><a href=\"" ++ Join urlPath file.Name ++ "\">" ++ file.Name ++ "</a></li>"))

/-- The handler `fileHandler`: serves files from the base directory. Returns the response and
the filesystem calls made. -/
def fileHandler (env : FsEnv) (r : Request) : Response × List FsOp :=
  let w := newWriter
  if r.Method = MethodGet then
    let path := Join baseDir r.URLPath
    -- Prevent directory traversal
    if !HasPrefix path (Clean baseDir) then
      (httpError w "Forbidden" 403, [])
    else
      -- Check if it's a file or a directory
      match env.Stat path with
      | .error err =>
        if err.notExist then (httpNotFound w, [.stat path])
        else (httpError w "Internal Server Error" 500, [.stat path])
      | .ok info =>
        if info.IsDir then
          -- List directory contents
          match env.ReadDir path with
          | .error _ => (httpError w "Internal Server Error" 500, [.stat path, .readDir path])
          | .ok files =>
            let w := setContentType w "text/html"
            let w := fprint w "<ul>\n"
            let w := writeEntries r.URLPath files w
            let w := fprint w "</ul>\n"
            (w, [.stat path, .readDir path])
        else
          -- Serve the file
          (env.ServeFile r path, [.stat path, .serveFile path])
  else
    (httpError w "Method Not Allowed" 405, [])

/-- The destination `dstPath` of `uploadHandler` for a file header. -/
def dstPath (handler : FileHeader) : String := Join baseDir (Base handler.Filename)

/-- The handler `uploadHandler`: handles file uploads. Returns the response, the disk
afterwards and the calls made. `os.Create` creates or truncates the destination; a failing
`io.Copy` leaves the bytes that were copied before the error. -/
def uploadHandler (env : UploadEnv) (disk : Disk) (r : Request) : Response × Disk × List FsOp :=
  let w := newWriter
  if r.Method ≠ MethodPost then
    (httpError w "Method Not Allowed" 405, disk, [])
  else if r.parseFails then
    -- Parse the multipart form
    (httpError w "Bad Request" 400, disk, [.parseMultipartForm])
  else
    match FormFile r with
    | none => (httpError w "Bad Request" 400, disk, [.parseMultipartForm, .formFile])
    | some (file, handler) =>
      -- Save the file
      let dst := dstPath handler
      match env.Create dst with
      | some _ =>
        (httpError w "Internal Server Error" 500, disk,
          [.parseMultipartForm, .formFile, .create dst])
      | none =>
        let disk1 := Function.update disk dst (some [])
        match env.copyFault with
        | some k =>
          (httpError w "Internal Server Error" 500, Function.update disk1 dst (some (file.take k)),
            [.parseMultipartForm, .formFile, .create dst, .copy dst])
        | none =>
          (fprint w ("File " ++ handler.Filename ++ " uploaded successfully."),
            Function.update disk1 dst (some file),
            [.parseMultipartForm, .formFile, .create dst, .copy dst])

/-! ## Path segments -/

/-- The segments of a path: the pieces between its separators. -/
def segments (p : String) : List String := (p.data.splitOn '/').map String.mk

/-- A name a directory entry can have: not empty, without separator, neither `.` nor `..`. -/
def isEntryName (n : String) : Bool :=
  n.data != [] && !n.data.contains '/' && n.data != ['.'] && n.data != ['.', '.']

/-- The run of the loop of `filepath.Clean` on the unread input `path`, with the bound on the
iterations that `filepath.Clean` leaves for it. -/
def cleanRun (rooted : Bool) (path out : List Char) (dotdot : Nat) : List Char :=
  cleanLoop rooted path.length path out dotdot

/-- Every segment preceded by a separator. -/
def slashed : List (List Char) → List Char
  | [] => []
  | s :: ss => '/' :: (s ++ slashed ss)

/-- The segments joined by separators. -/
def joinSegs : List (List Char) → List Char
  | [] => []
  | s :: ss => s ++ slashed ss

/-- A segment that `filepath.Clean` keeps: neither empty nor `.`. -/
def realSeg (s : List Char) : Bool := s != [] && s != ['.']

/-- The separator `filepath.Clean` writes before a real path element. -/
def addSep (rooted : Bool) (out : List Char) : List Char :=
  if (rooted && out.length != 1) || (!rooted && out.length != 0) then out ++ ['/'] else out

/-- The buffer after the real path elements `segs` were written to `out` in turn. -/
def appendSegs (rooted : Bool) (out : List Char) : List (List Char) → List Char
  | [] => out
  | s :: ss => appendSegs rooted (addSep rooted out ++ s) ss

/-- The cleaned path made of the real segments `segs`. -/
def render (rooted : Bool) (segs : List (List Char)) : List Char :=
  if rooted then '/' :: joinSegs segs else if segs.isEmpty then ['.'] else joinSegs segs

/-- The effect of one segment on the elements `filepath.Clean` has kept so far, given as the
number of leading `..` elements and the real elements after them: an empty or `.` segment
changes nothing, `..` drops the last real element, or else is kept as one more leading `..`
(unrooted path) or ignored (rooted path), any other segment is added. -/
def stepSeg (rooted : Bool) (st : Nat × List (List Char)) (s : List Char) :
    Nat × List (List Char) :=
  if s = [] ∨ s = ['.'] then st
  else if s = ['.', '.'] then
    if st.2 ≠ [] then (st.1, st.2.dropLast)
    else if rooted then st
    else (st.1 + 1, [])
  else (st.1, st.2 ++ [s])

/-- The elements kept so far, in order: the leading `..` elements, then the real ones. -/
def stateSegs (st : Nat × List (List Char)) : List (List Char) :=
  List.replicate st.1 ['.', '.'] ++ st.2

/-- Whether some `..` segment of the list occurs at depth 0, that is, climbs above the
directory the list starts in; `depth` counts the real segments entered and not left. -/
def climbsAbove : Nat → List (List Char) → Bool
  | _, [] => false
  | depth, s :: ss =>
    if s = ['.', '.'] then (if depth = 0 then true else climbsAbove (depth - 1) ss)
    else if realSeg s then climbsAbove (depth + 1) ss
    else climbsAbove depth ss

/-- Whether a request path begins with a separator and has a `..` segment that climbs above
that leading separator. -/
def climbsAboveRoot (p : String) : Bool :=
  p.data.headD '.' == '/' && climbsAbove 0 (p.data.splitOn '/')

/-- The elements kept so far are real path elements: not empty, without separator, neither
`.` nor `..`. -/
def goodState (st : Nat × List (List Char)) : Prop :=
  ∀ s ∈ st.2, s ≠ [] ∧ '/' ∉ s ∧ s ≠ ['.'] ∧ s ≠ ['.', '.']

/-- The leading separator of a rooted path. -/
def rootPrefix (rooted : Bool) : List Char := if rooted then ['/'] else []

/-- The buffer of `filepath.Clean` that holds the elements kept so far. -/
def stateBuf (rooted : Bool) (st : Nat × List (List Char)) : List Char :=
  rootPrefix rooted ++ joinSegs (stateSegs st)

/-- The index `dotdot` of `filepath.Clean` for the elements kept so far: the end of the leading
separator or of the leading `..` elements. -/
def stateDotdot (rooted : Bool) (st : Nat × List (List Char)) : Nat :=
  (rootPrefix rooted ++ joinSegs (List.replicate st.1 ['.', '.'])).length

/-- A path is a direct child of the root: the cleaned base directory, a separator, and one
entry name. -/
def isChildOfRoot (path : String) : Bool :=
  (Clean baseDir ++ "/").data.isPrefixOf path.data
    && isEntryName (String.mk (path.data.drop (Clean baseDir ++ "/").data.length))

/-! ## Concrete environments and requests -/

/-- A filesystem in which the sibling directory `files-secret` of the base directory exists
and holds one entry, `key.pem`; nothing else exists. -/
def siblingEnv : FsEnv where
  Stat := fun path =>
    if path = "files-secret" then .ok ⟨true⟩ else .error ⟨true, "no such file or directory"⟩
  ReadDir := fun path =>
    if path = "files-secret" then .ok [⟨"key.pem"⟩] else .error ⟨true, "no such file or directory"⟩
  ServeFile := fun _ _ => newWriter

/-- A GET request for a URL path. -/
def getRequest (urlPath : String) : Request := ⟨MethodGet, urlPath, false, none⟩

/-- A POST request to `/upload` whose form parses and holds a part `file` with the given
client filename and content. -/
def postUpload (filename : String) (content : List Nat) : Request :=
  ⟨MethodPost, "/upload", false, some (content, filename)⟩

/-- The response `http.Error(w, "Internal Server Error", http.StatusInternalServerError)`
leaves in a fresh writer. -/
def internalServerError : Response :=
  ⟨500, "text/plain; charset=utf-8", "Internal Server Error\n"⟩

/-- The list item `fileHandler` writes for the entry `name` of the directory at `urlPath`. -/
def listItem (urlPath name : String) : String :=
  "<li><a href=\"" ++ Join urlPath name ++ "\">" ++ name ++ "</a></li>"

/-- A filesystem in which every path is a directory with the entries `a.txt` and `sub`. -/
def dirEnv : FsEnv where
  Stat := fun _ => .ok ⟨true⟩
  ReadDir := fun _ => .ok [⟨"a.txt"⟩, ⟨"sub"⟩]
  ServeFile := fun _ _ => newWriter

/-- A filesystem in which `os.Stat` fails on every path with the given error. -/
def statErrEnv (err : OsError) : FsEnv where
  Stat := fun _ => .error err
  ReadDir := fun _ => .ok []
  ServeFile := fun _ _ => newWriter

/-- A filesystem in which every path is a directory that `os.ReadDir` cannot read. -/
def readDirErrEnv (err : OsError) : FsEnv where
  Stat := fun _ => .ok ⟨true⟩
  ReadDir := fun _ => .error err
  ServeFile := fun _ _ => newWriter

/-- A filesystem in which every path is a regular file that `http.ServeFile` may not open: it
answers 403 Forbidden, as it does on a permission error. -/
def forbiddenFileEnv : FsEnv where
  Stat := fun _ => .ok ⟨false⟩
  ReadDir := fun _ => .error ⟨false, "not a directory"⟩
  ServeFile := fun _ _ => httpError newWriter "403 Forbidden" 403

/-- The empty disk. -/
def emptyDisk : Disk := fun _ => none

/-- An upload environment in which `os.Create` and `io.Copy` succeed. -/
def okUploadEnv : UploadEnv := ⟨fun _ => none, none⟩

/-- An upload environment in which `os.Create` succeeds and `io.Copy` fails after one byte. -/
def copyFaultEnv : UploadEnv := ⟨fun _ => none, some 1⟩

/-- An upload environment in which `os.Create` fails on the directories `.` and `files`. -/
def isDirEnv : UploadEnv :=
  ⟨fun path => if path = "." ∨ path = "files" then some ⟨false, "is a directory"⟩ else none, none⟩


/-! ## The loop of `filepath.Clean`, segment by segment -/

theorem cleanLoop_fuel (rooted : Bool) : ∀ (f f' : Nat) (p out : List Char) (dd : Nat),
    p.length ≤ f → p.length ≤ f' →
    cleanLoop rooted f p out dd = cleanLoop rooted f' p out dd := by
  intro f
  induction f with
  | zero =>
    intro f' p out dd h1 _
    have hp : p = [] := List.length_eq_zero.mp (Nat.le_zero.mp h1)
    subst hp
    cases f' <;> simp [cleanLoop]
  | succ f ih =>
    intro f' p out dd h1 h2
    cases p with
    | nil => cases f' <;> simp [cleanLoop]
    | cons c rest =>
      cases f' with
      | zero => simp at h2
      | succ f' =>
        have hr : rest.length ≤ f := by simpa using h1
        have hr' : rest.length ≤ f' := by simpa using h2
        have ht : rest.tail.length ≤ rest.length := by simp
        simp only [cleanLoop]
        by_cases hc : IsPathSeparator c = true
        · simp only [hc, if_true]
          exact ih _ _ _ _ hr hr'
        · have hd : ((c :: rest).dropWhile fun b => !IsPathSeparator b).length ≤ rest.length := by
            rw [List.dropWhile_cons_of_pos (by simpa using hc)]
            exact (List.dropWhile_sublist _).length_le
          simp only [hc, Bool.false_eq_true, if_false]
          split_ifs <;> exact ih _ _ _ _ (by omega) (by omega)

theorem cleanRun_nil (rooted : Bool) (out : List Char) (dd : Nat) :
    cleanRun rooted [] out dd = out := by
  simp [cleanRun, cleanLoop]

theorem cleanRun_sep (rooted : Bool) (p out : List Char) (dd : Nat) :
    cleanRun rooted ('/' :: p) out dd = cleanRun rooted p out dd := by
  simp [cleanRun, cleanLoop, IsPathSeparator]

theorem cleanRun_dot (rooted : Bool) (d out : List Char) (dd : Nat)
    (hd : d = [] ∨ ∃ d', d = '/' :: d') :
    cleanRun rooted ('.' :: d) out dd = cleanRun rooted d out dd := by
  rcases hd with rfl | ⟨d', rfl⟩ <;> simp [cleanRun, cleanLoop, IsPathSeparator]

theorem takeWhile_seg (s d : List Char) (hsep : '/' ∉ s) (hd : d = [] ∨ ∃ d', d = '/' :: d') :
    (s ++ d).takeWhile (fun b => !IsPathSeparator b) = s := by
  have hall : ∀ a ∈ s, (fun b => !IsPathSeparator b) a = true := by
    intro a ha
    have : a ≠ '/' := fun h => hsep (h ▸ ha)
    simp [IsPathSeparator, this]
  rw [List.takeWhile_append_of_pos hall]
  rcases hd with rfl | ⟨d', rfl⟩ <;> simp [IsPathSeparator]

theorem dropWhile_seg (s d : List Char) (hsep : '/' ∉ s) (hd : d = [] ∨ ∃ d', d = '/' :: d') :
    (s ++ d).dropWhile (fun b => !IsPathSeparator b) = d := by
  have hall : ∀ a ∈ s, (fun b => !IsPathSeparator b) a = true := by
    intro a ha
    have : a ≠ '/' := fun h => hsep (h ▸ ha)
    simp [IsPathSeparator, this]
  rw [List.dropWhile_append_of_pos hall]
  rcases hd with rfl | ⟨d', rfl⟩ <;> simp [IsPathSeparator]

theorem cleanRun_seg (rooted : Bool) (s d out : List Char) (dd : Nat) (hs : s ≠ [])
    (hsep : '/' ∉ s) (h1 : s ≠ ['.']) (h2 : s ≠ ['.', '.'])
    (hd : d = [] ∨ ∃ d', d = '/' :: d') :
    cleanRun rooted (s ++ d) out dd = cleanRun rooted d (addSep rooted out ++ s) dd := by
  have htake := takeWhile_seg s d hsep hd
  have hdrop := dropWhile_seg s d hsep hd
  obtain ⟨c, s', rfl⟩ := List.exists_cons_of_ne_nil hs
  have hc : IsPathSeparator c = false := by
    have : c ≠ '/' := fun h => hsep (h ▸ List.mem_cons_self _ _)
    simp [IsPathSeparator, this]
  have c2 : (c == '.' && ((s' ++ d).isEmpty || IsPathSeparator ((s' ++ d).headD '/'))) = false := by
    rcases s' with _ | ⟨b, s''⟩
    · have : c ≠ '.' := fun h => h1 (by rw [h])
      simp [this]
    · have : b ≠ '/' := fun h => hsep (h ▸ by simp)
      simp [IsPathSeparator, this]
  have c3 : (c == '.' && (s' ++ d).headD '/' == '.' && !(s' ++ d).isEmpty
      && ((s' ++ d).tail.isEmpty || IsPathSeparator ((s' ++ d).tail.headD '/'))) = false := by
    rcases s' with _ | ⟨b, _ | ⟨b', s''⟩⟩
    · rcases hd with rfl | ⟨d', rfl⟩ <;> simp
    · by_cases hcb : c = '.' ∧ b = '.'
      · exact absurd (by rw [hcb.1, hcb.2]) h2
      · rcases hd with rfl | ⟨d', rfl⟩ <;> simp <;> tauto
    · have : b' ≠ '/' := fun h => hsep (h ▸ by simp)
      simp [IsPathSeparator, this]
  unfold cleanRun
  rw [List.cons_append, List.length_cons, cleanLoop]
  rw [← List.cons_append, htake, hdrop] 
  simp only [hc, c2, c3, Bool.false_eq_true, if_false]
  exact cleanLoop_fuel rooted _ _ _ _ _ (by simp) (le_refl _)

theorem cleanRun_dotdot (rooted : Bool) (d out : List Char) (dd : Nat)
    (hd : d = [] ∨ ∃ d', d = '/' :: d') :
    cleanRun rooted ('.' :: '.' :: d) out dd
      = if out.length > dd then
          cleanRun rooted d (out.take (backtrack out dd (out.length - 1))) dd
        else if !rooted then
          cleanRun rooted d ((if out.length > 0 then out ++ ['/'] else out) ++ ['.', '.'])
            ((if out.length > 0 then out ++ ['/'] else out) ++ ['.', '.']).length
        else cleanRun rooted d out dd := by
  have c3 : (d.isEmpty || IsPathSeparator (d.headD '/')) = true := by
    rcases hd with rfl | ⟨d', rfl⟩ <;> simp [IsPathSeparator]
  have hfuel : ∀ o k, cleanLoop rooted (d.length + 1) d o k = cleanLoop rooted d.length d o k :=
    fun o k => cleanLoop_fuel rooted _ _ _ _ _ (by simp) (le_refl _)
  unfold cleanRun
  rw [List.length_cons, cleanLoop]
  have hs : IsPathSeparator '.' = false := by decide
  simp only [hs, Bool.false_eq_true, if_false, List.isEmpty_cons, List.headD_cons,
    Bool.false_or, Bool.and_false, beq_self_eq_true, Bool.true_and, Bool.not_false,
    List.tail_cons, c3, if_true, List.length_cons, hfuel]

theorem backtrack_go (buf : List Char) (dd w : Nat) (h1 : w + 1 > dd)
    (h2 : buf.getD (w + 1) '/' ≠ '/') : backtrack buf dd (w + 1) = backtrack buf dd w := by
  have h2' : (buf.getD (w + 1) '/' == '/') = false := by simpa using h2
  rw [backtrack]
  simp only [h1, decide_True, IsPathSeparator, h2', Bool.not_false, Bool.and_self, if_true]

theorem backtrack_stop_sep (buf : List Char) (dd w : Nat) (h : buf.getD w '/' = '/') :
    backtrack buf dd w = w := by
  cases w with
  | zero => rfl
  | succ w =>
    have h' : (buf.getD (w + 1) '/' == '/') = true := by simpa using h
    rw [backtrack]
    simp only [IsPathSeparator, h', Bool.not_true, Bool.and_false, Bool.false_eq_true, if_false]

theorem backtrack_stop_le (buf : List Char) (dd w : Nat) (h : w ≤ dd) :
    backtrack buf dd w = w := by
  cases w with
  | zero => rfl
  | succ w =>
    have h' : ¬ (w + 1 > dd) := by omega
    rw [backtrack]
    simp only [h', decide_False, Bool.false_and, Bool.false_eq_true, if_false]

theorem backtrack_to_sep (X s : List Char) (dd : Nat) (hsep : '/' ∉ s)
    (hdd : dd ≤ X.length) :
    ∀ j, j ≤ s.length → backtrack (X ++ '/' :: s) dd (X.length + j) = X.length := by
  intro j
  induction j with
  | zero =>
    intro _
    apply backtrack_stop_sep
    rw [Nat.add_zero, List.getD_eq_getElem _ _ (by simp)]
    rw [List.getElem_append_right (le_refl _)]
    simp
  | succ j ih =>
    intro hj
    have hgt : X.length + j + 1 > dd := by omega
    · have hget : (X ++ '/' :: s).getD (X.length + j + 1) '/' ∈ s := by
        rw [List.getD_eq_getElem _ _ (by simp; omega)]
        rw [List.getElem_append_right (by omega)]
        have : X.length + j + 1 - X.length = j + 1 := by omega
        simp only [this, List.getElem_cons_succ]
        exact List.getElem_mem _
      have hne : (X ++ '/' :: s).getD (X.length + j + 1) '/' ≠ '/' := fun h => hsep (h ▸ hget)
      rw [← Nat.add_assoc, backtrack_go _ _ _ hgt hne]
      exact ih (by omega)

theorem backtrack_to_dotdot (X s : List Char) (hsep : '/' ∉ s) :
    ∀ j, j < s.length → backtrack (X ++ s) X.length (X.length + j) = X.length := by
  intro j
  induction j with
  | zero =>
    intro _
    exact backtrack_stop_le _ _ _ (le_refl _)
  | succ j ih =>
    intro hj
    have hget : (X ++ s).getD (X.length + j + 1) '/' ∈ s := by
      rw [List.getD_eq_getElem _ _ (by simp; omega)]
      rw [List.getElem_append_right (by omega)]
      exact List.getElem_mem _
    have hne : (X ++ s).getD (X.length + j + 1) '/' ≠ '/' := fun h => hsep (h ▸ hget)
    rw [← Nat.add_assoc, backtrack_go _ _ _ (by omega) hne]
    exact ih (by omega)

/-! ## Segments and their rendering -/

theorem slashed_boundary (ss : List (List Char)) :
    slashed ss = [] ∨ ∃ d', slashed ss = '/' :: d' := by
  cases ss with
  | nil => exact Or.inl rfl
  | cons s ss => exact Or.inr ⟨_, rfl⟩

theorem slashed_append (xs ys : List (List Char)) :
    slashed (xs ++ ys) = slashed xs ++ slashed ys := by
  induction xs with
  | nil => rfl
  | cons x xs ih => simp [slashed, ih]

theorem slashed_joinSegs (ss : List (List Char)) (h : ss ≠ []) :
    slashed ss = '/' :: joinSegs ss := by
  cases ss with
  | nil => exact absurd rfl h
  | cons s ss => rfl

theorem slashed_splitOn (p : List Char) : slashed (p.splitOn '/') = '/' :: p := by
  induction p with
  | nil => rfl
  | cons x xs ih =>
    rw [List.splitOn, List.splitOnP_cons]
    rw [List.splitOn] at ih
    by_cases hx : (x == '/') = true
    · have hx' : x = '/' := by simpa using hx
      simp only [hx, if_true, slashed, List.nil_append, ih, hx']
    · simp only [hx, Bool.false_eq_true, if_false]
      cases h : List.splitOnP (fun c => c == '/') xs with
      | nil => exact absurd h (List.splitOnP_ne_nil _ _)
      | cons s ss =>
        rw [h] at ih
        simp only [slashed, List.cons.injEq, true_and] at ih
        simp [List.modifyHead, slashed, ih]

theorem splitOn_no_sep (p : List Char) : ∀ s ∈ p.splitOn '/', '/' ∉ s := by
  induction p with
  | nil => intro s hs; simp [List.splitOn, List.splitOnP, List.splitOnP.go] at hs; simp [hs]
  | cons x xs ih =>
    rw [List.splitOn, List.splitOnP_cons]
    rw [List.splitOn] at ih
    by_cases hx : (x == '/') = true
    · simp only [hx, if_true]
      intro s hs
      rcases List.mem_cons.mp hs with rfl | hs
      · simp
      · exact ih s hs
    · simp only [hx, Bool.false_eq_true, if_false]
      cases h : List.splitOnP (fun c => c == '/') xs with
      | nil => exact absurd h (List.splitOnP_ne_nil _ _)
      | cons s ss =>
        rw [h] at ih
        intro t ht
        simp only [List.modifyHead, List.mem_cons] at ht
        rcases ht with rfl | ht
        · have hs := ih s (List.mem_cons_self _ _)
          have hx' : x ≠ '/' := by simpa using hx
          simp [hs, hx'.symm]
        · exact ih t (List.mem_cons_of_mem _ ht)

theorem slashed_inj : ∀ a b : List (List Char), (∀ s ∈ a, '/' ∉ s) → (∀ s ∈ b, '/' ∉ s) →
    slashed a = slashed b → a = b := by
  intro a
  induction a with
  | nil =>
    intro b _ _ h
    cases b with
    | nil => rfl
    | cons t b' => simp [slashed] at h
  | cons s a' ih =>
    intro b ha hb h
    cases b with
    | nil => simp [slashed] at h
    | cons t b' =>
      simp only [slashed, List.cons.injEq, true_and] at h
      have hs := ha s (List.mem_cons_self _ _)
      have ht := hb t (List.mem_cons_self _ _)
      have h1 := takeWhile_seg s (slashed a') hs (slashed_boundary a')
      have h2 := takeWhile_seg t (slashed b') ht (slashed_boundary b')
      have hst : s = t := by rw [← h1, ← h2, h]
      subst hst
      have h' := List.append_cancel_left h
      rw [ih b' (fun u hu => ha u (List.mem_cons_of_mem _ hu))
        (fun u hu => hb u (List.mem_cons_of_mem _ hu)) h']

theorem joinSegs_eq_nil (segs : List (List Char)) (hreal : ∀ s ∈ segs, s ≠ [])
    (h : joinSegs segs = []) : segs = [] := by
  cases segs with
  | nil => rfl
  | cons s ss =>
    exfalso
    have hs := hreal s (List.mem_cons_self _ _)
    simp [joinSegs] at h
    exact hs h.1

theorem joinSegs_append (a b : List (List Char)) (ha : a ≠ []) :
    joinSegs (a ++ b) = joinSegs a ++ slashed b := by
  cases a with
  | nil => exact absurd rfl ha
  | cons x xs => simp [joinSegs, slashed_append]

theorem joinSegs_ne_nil (a : List (List Char)) (ha : a ≠ []) (hne : ∀ s ∈ a, s ≠ []) :
    joinSegs a ≠ [] := fun h => ha (joinSegs_eq_nil a hne h)

theorem joinSegs_length_le (a b : List (List Char)) :
    (joinSegs a).length ≤ (joinSegs (a ++ b)).length := by
  by_cases ha : a = []
  · subst ha; simp [joinSegs]
  · rw [joinSegs_append a b ha]; simp

theorem joinSegs_head (segs : List (List Char)) (hne : segs ≠ [])
    (h : ∀ s ∈ segs, s ≠ [] ∧ '/' ∉ s) : ((joinSegs segs).headD '.' == '/') = false := by
  cases segs with
  | nil => exact absurd rfl hne
  | cons s ss =>
    obtain ⟨h0, hsep⟩ := h s (List.mem_cons_self _ _)
    obtain ⟨c, t, rfl⟩ := List.exists_cons_of_ne_nil h0
    have : c ≠ '/' := fun hc => hsep (hc ▸ List.mem_cons_self _ _)
    simp [joinSegs, this]

theorem render_ne_nil (rooted : Bool) (segs : List (List Char)) (h : ∀ s ∈ segs, s ≠ []) :
    render rooted segs ≠ [] := by
  unfold render
  split_ifs with h1 h2
  · simp
  · simp
  · have : segs ≠ [] := by simpa using h2
    exact joinSegs_ne_nil _ this h

theorem appendSegs_away (rooted : Bool) (segs : List (List Char)) :
    ∀ out : List Char, 2 ≤ out.length →
      appendSegs rooted out segs = out ++ slashed segs := by
  induction segs with
  | nil => intro out _; simp [appendSegs, slashed]
  | cons s ss ih =>
    intro out h
    have hne1 : out.length ≠ 1 := by omega
    have hne0 : out.length ≠ 0 := by omega
    have hadd : addSep rooted out = out ++ ['/'] := by
      cases rooted <;> simp [addSep, hne1, hne0]
    rw [appendSegs, hadd, ih _ (by simp; omega)]
    simp [slashed]

theorem appendSegs_start (rooted : Bool) (segs : List (List Char))
    (hreal : ∀ s ∈ segs, s ≠ []) :
    appendSegs rooted (if rooted then ['/'] else []) segs
      = (if rooted then ['/'] else []) ++ joinSegs segs := by
  cases segs with
  | nil => simp [appendSegs, joinSegs]
  | cons s ss =>
    have hs : s ≠ [] := hreal s (List.mem_cons_self _ _)
    have hlen : 1 ≤ s.length := List.length_pos.mpr hs
    cases rooted
    · by_cases h2 : 2 ≤ s.length
      · simp only [appendSegs, addSep, Bool.false_eq_true, if_false]
        simp only [Bool.false_and, Bool.not_false, List.length_nil, bne_self_eq_false,
          Bool.and_false, Bool.or_false, Bool.false_eq_true, if_false, List.nil_append]
        rw [appendSegs_away _ _ _ h2]
        simp [joinSegs]
      · -- a one-character first segment: the next separator is still added
        have h1 : s.length = 1 := by omega
        cases ss with
        | nil => simp [appendSegs, addSep, joinSegs, slashed]
        | cons t ts =>
          simp only [appendSegs, addSep, Bool.false_eq_true, if_false]
          simp only [Bool.false_and, Bool.not_false, List.length_nil, bne_self_eq_false,
            Bool.and_false, Bool.or_false, Bool.false_eq_true, if_false, List.nil_append,
            Bool.true_and, h1]
          have : (1 : Nat) != 0 := by decide
          simp only [this, if_true]
          rw [appendSegs_away _ _ _ (by simp [h1]; omega)]
          simp [joinSegs, slashed]
    · simp only [appendSegs, addSep, if_true]
      simp only [Bool.true_and, List.length_singleton, bne_self_eq_false, Bool.not_true,
        Bool.false_and, Bool.or_false, Bool.false_eq_true, if_false]
      rw [appendSegs_away _ _ _ (by simp; omega)]
      simp [joinSegs]

theorem cleanRun_slashed (rooted : Bool) : ∀ (ss : List (List Char)) (out : List Char) (dd : Nat),
    (∀ s ∈ ss, '/' ∉ s) → ['.', '.'] ∉ ss →
    cleanRun rooted (slashed ss) out dd = appendSegs rooted out (ss.filter realSeg) := by
  intro ss
  induction ss with
  | nil => intro out dd _ _; simp [slashed, cleanRun_nil, appendSegs]
  | cons s ss ih =>
    intro out dd hsep hdd
    have hsep' : ∀ t ∈ ss, '/' ∉ t := fun t ht => hsep t (List.mem_cons_of_mem _ ht)
    have hdd' : ['.', '.'] ∉ ss := fun h => hdd (List.mem_cons_of_mem _ h)
    have hs2 : s ≠ ['.', '.'] := fun h => hdd (h ▸ List.mem_cons_self _ _)
    rw [slashed, cleanRun_sep]
    by_cases h0 : s = []
    · subst h0
      simp [realSeg, ih _ _ hsep' hdd']
    · by_cases h1 : s = ['.']
      · subst h1
        rw [List.singleton_append, cleanRun_dot _ _ _ _ (slashed_boundary ss)]
        simp [realSeg, ih _ _ hsep' hdd']
      · rw [cleanRun_seg rooted s _ out dd h0 (hsep s (List.mem_cons_self _ _)) h1 hs2
          (slashed_boundary ss), ih _ _ hsep' hdd']
        have hr : realSeg s = true := by simp [realSeg, h0, h1]
        simp [List.filter_cons, hr, appendSegs]

theorem realSeg_ne_nil (ss : List (List Char)) : ∀ s ∈ ss.filter realSeg, s ≠ [] := by
  intro s hs
  have := (List.mem_filter.mp hs).2
  intro h
  subst h
  simp [realSeg] at this

/-- The value of `filepath.Clean` on a non-empty path without `..` segment, from its
segments `ss` (given through `'/' :: q = slashed ss`). -/
theorem cleanChars_of_slashed (ss : List (List Char)) (q : List Char)
    (hq : '/' :: q = slashed ss) (hne : q ≠ []) (hsep : ∀ s ∈ ss, '/' ∉ s)
    (hdd : ['.', '.'] ∉ ss) :
    cleanChars q = render (q.headD '.' == '/') (ss.filter realSeg) := by
  obtain ⟨c, q', rfl⟩ := List.exists_cons_of_ne_nil hne
  have hrun : ∀ (r : Bool) (out : List Char) (dd : Nat),
      cleanRun r (c :: q') out dd = appendSegs r out (ss.filter realSeg) := by
    intro r out dd
    rw [← cleanRun_sep, hq, cleanRun_slashed r ss out dd hsep hdd]
  have hreal := realSeg_ne_nil ss
  by_cases hc : c = '/'
  · subst hc
    have h1 : cleanLoop true ('/' :: q').length q' ['/'] 1
        = appendSegs true ['/'] (ss.filter realSeg) := by
      rw [← hrun true ['/'] 1, cleanRun_sep]
      exact cleanLoop_fuel true _ _ _ _ _ (by simp) (le_refl _)
    have h2 := appendSegs_start true (ss.filter realSeg) hreal
    simp only [if_true] at h2
    rw [h2, List.length_cons] at h1
    simp [cleanChars, IsPathSeparator, h1, render]
  · have h1 : cleanLoop false (c :: q').length (c :: q') [] 0
        = appendSegs false [] (ss.filter realSeg) := hrun false [] 0
    have h2 := appendSegs_start false (ss.filter realSeg) hreal
    simp only [Bool.false_eq_true, if_false, List.nil_append] at h2
    have hcb : (c == '/') = false := by simpa using hc
    simp only [cleanChars, List.isEmpty_cons, Bool.false_eq_true, if_false, List.headD_cons,
      IsPathSeparator, hcb, h1, h2, render]
    by_cases he : (ss.filter realSeg) = []
    · simp [he, joinSegs]
    · have hj : joinSegs (ss.filter realSeg) ≠ [] := fun h => he (joinSegs_eq_nil _ hreal h)
      have hl : (joinSegs (ss.filter realSeg)).length ≠ 0 := by
        simpa [List.length_eq_zero] using hj
      simp [he, hl]

/-! ## The buffer of `filepath.Clean` and the elements kept so far -/

theorem stateSegs_ne_nil (st : Nat × List (List Char)) (hg : goodState st) :
    ∀ s ∈ stateSegs st, s ≠ [] := by
  intro s hs
  rcases List.mem_append.mp hs with h | h
  · rw [(List.mem_replicate.mp h).2]; decide
  · exact (hg s h).1

theorem stateSegs_no_sep (st : Nat × List (List Char)) (hg : goodState st) :
    ∀ s ∈ stateSegs st, '/' ∉ s := by
  intro s hs
  rcases List.mem_append.mp hs with h | h
  · rw [(List.mem_replicate.mp h).2]; decide
  · exact (hg s h).2.1

theorem stateSegs_push (st : Nat × List (List Char)) (s : List Char) :
    stateSegs (st.1, st.2 ++ [s]) = stateSegs st ++ [s] := by
  simp [stateSegs]

theorem stateBuf_push (rooted : Bool) (st : Nat × List (List Char)) (s : List Char)
    (hg : goodState st) :
    addSep rooted (stateBuf rooted st) ++ s = stateBuf rooted (st.1, st.2 ++ [s]) := by
  have hsegs : stateSegs (st.1, st.2 ++ [s]) = stateSegs st ++ [s] := by
    simp [stateSegs]
  by_cases hA : stateSegs st = []
  · have : stateBuf rooted st = rootPrefix rooted := by simp [stateBuf, hA, joinSegs]
    rw [this, stateBuf, hsegs, hA]
    cases rooted <;> simp [addSep, rootPrefix, joinSegs, slashed]
  · have hj := joinSegs_ne_nil _ hA (stateSegs_ne_nil st hg)
    have hl : 0 < (joinSegs (stateSegs st)).length := List.length_pos.mpr hj
    have hadd : addSep rooted (stateBuf rooted st) = stateBuf rooted st ++ ['/'] := by
      cases rooted
      · have : (stateBuf false st).length ≠ 0 := by simp [stateBuf, rootPrefix]; exact hj
        simp [addSep, this]
      · have : (stateBuf true st).length ≠ 1 := by simp [stateBuf, rootPrefix]; exact hj
        simp [addSep, this]
    rw [hadd, stateBuf, stateBuf, hsegs, joinSegs_append _ _ hA]
    simp [slashed]

theorem stateBuf_pop (rooted : Bool) (k : Nat) (st' : List (List Char)) (x : List Char)
    (hg : goodState (k, st' ++ [x])) :
    (stateBuf rooted (k, st' ++ [x])).length > stateDotdot rooted (k, st' ++ [x])
    ∧ (stateBuf rooted (k, st' ++ [x])).take
        (backtrack (stateBuf rooted (k, st' ++ [x])) (stateDotdot rooted (k, st' ++ [x]))
          ((stateBuf rooted (k, st' ++ [x])).length - 1))
      = stateBuf rooted (k, st') := by
  have hx := hg x (by simp)
  have hxl : 0 < x.length := List.length_pos.mpr hx.1
  have hsegs : stateSegs (k, st' ++ [x]) = stateSegs (k, st') ++ [x] := by
    simp [stateSegs]
  by_cases hA : stateSegs (k, st') = []
  · have hk : k = 0 := by
      by_contra hk
      obtain ⟨k', rfl⟩ := Nat.exists_eq_succ_of_ne_zero hk
      simp [stateSegs, List.replicate_succ] at hA
    subst hk
    have hbuf : stateBuf rooted (0, st' ++ [x]) = rootPrefix rooted ++ x := by
      simp [stateBuf, hsegs, hA, joinSegs, slashed]
    have hdd : stateDotdot rooted (0, st' ++ [x]) = (rootPrefix rooted).length := by
      simp [stateDotdot, joinSegs]
    have hres : stateBuf rooted (0, st') = rootPrefix rooted := by
      simp [stateBuf, hA, joinSegs]
    rw [hbuf, hdd, hres]
    constructor
    · simp; exact hxl
    · have hlen : (rootPrefix rooted ++ x).length - 1 = (rootPrefix rooted).length + (x.length - 1) := by
        simp; omega
      rw [hlen, backtrack_to_dotdot _ _ hx.2.1 _ (by omega)]
      simp
  · have hbuf : stateBuf rooted (k, st' ++ [x])
        = (rootPrefix rooted ++ joinSegs (stateSegs (k, st'))) ++ '/' :: x := by
      simp [stateBuf, hsegs, joinSegs_append _ _ hA, slashed]
    have hddle : stateDotdot rooted (k, st' ++ [x])
        ≤ (rootPrefix rooted ++ joinSegs (stateSegs (k, st'))).length := by
      simp only [stateDotdot, stateSegs, List.length_append]
      have := joinSegs_length_le (List.replicate k ['.', '.']) st'
      omega
    rw [hbuf]
    constructor
    · simp only [List.length_append, List.length_cons] at hddle ⊢
      omega
    · have hlen : ((rootPrefix rooted ++ joinSegs (stateSegs (k, st'))) ++ '/' :: x).length - 1
          = (rootPrefix rooted ++ joinSegs (stateSegs (k, st'))).length + x.length := by
        simp; omega
      rw [hlen, backtrack_to_sep _ _ _ hx.2.1 hddle _ (le_refl _)]
      exact List.take_left' rfl

theorem stateBuf_up (k : Nat) :
    (if (stateBuf false (k, [])).length > 0 then stateBuf false (k, []) ++ ['/']
      else stateBuf false (k, [])) ++ ['.', '.'] = stateBuf false (k + 1, [])
    ∧ (stateBuf false (k + 1, [])).length = stateDotdot false (k + 1, []) := by
  have hsegs : stateSegs (k + 1, []) = stateSegs (k, []) ++ [['.', '.']] := by
    simp [stateSegs, List.replicate_succ']
  constructor
  · cases k with
    | zero => simp [stateBuf, stateSegs, rootPrefix, joinSegs, slashed]
    | succ k =>
      have hA : stateSegs (k + 1, []) ≠ [] := by simp [stateSegs, List.replicate_succ]
      have hj : joinSegs (stateSegs (k + 1, [])) ≠ [] :=
        joinSegs_ne_nil _ hA (stateSegs_ne_nil _ (by intro s hs; simp at hs))
      have hl : (stateBuf false (k + 1, [])).length > 0 := by
        simp only [stateBuf, rootPrefix, Bool.false_eq_true, if_false, List.nil_append]
        exact List.length_pos.mpr hj
      rw [if_pos hl]
      simp only [stateBuf, hsegs, joinSegs_append _ _ hA]
      simp [rootPrefix, slashed]
  · simp [stateBuf, stateDotdot, stateSegs]

theorem stepSeg_good (rooted : Bool) (st : Nat × List (List Char)) (s : List Char)
    (hg : goodState st) (hsep : '/' ∉ s) : goodState (stepSeg rooted st s) := by
  unfold stepSeg
  split_ifs with h1 h2 h3 h4
  · exact hg
  · intro t ht
    exact hg t (List.dropLast_subset _ ht)
  · exact hg
  · intro t ht
    simp at ht
  · intro t ht
    rcases List.mem_append.mp ht with ht | ht
    · exact hg t ht
    · rw [List.mem_singleton.mp ht]
      exact ⟨fun h => h1 (Or.inl h), hsep, fun h => h1 (Or.inr h), h2⟩

theorem stepSeg_rooted (st : Nat × List (List Char)) (s : List Char) (h : st.1 = 0) :
    (stepSeg true st s).1 = 0 := by
  unfold stepSeg
  split_ifs <;> simp_all

theorem foldl_stepSeg_good (rooted : Bool) (ss : List (List Char)) :
    ∀ st, goodState st → (∀ s ∈ ss, '/' ∉ s) → goodState (ss.foldl (stepSeg rooted) st) := by
  induction ss with
  | nil => intro st hg _; exact hg
  | cons s ss ih =>
    intro st hg hsep
    exact ih _ (stepSeg_good rooted st s hg (hsep s (List.mem_cons_self _ _)))
      (fun t ht => hsep t (List.mem_cons_of_mem _ ht))

/-- The loop of `filepath.Clean` on a list of segments computes `stepSeg` segment by
segment. -/
theorem cleanRun_state (rooted : Bool) : ∀ (ss : List (List Char)) (st : Nat × List (List Char)),
    goodState st → (rooted = true → st.1 = 0) → (∀ s ∈ ss, '/' ∉ s) →
    cleanRun rooted (slashed ss) (stateBuf rooted st) (stateDotdot rooted st)
      = stateBuf rooted (ss.foldl (stepSeg rooted) st) := by
  intro ss
  induction ss with
  | nil => intro st _ _ _; simp [slashed, cleanRun_nil]
  | cons s ss ih =>
    intro st hg hr hsep
    have hsep' : ∀ t ∈ ss, '/' ∉ t := fun t ht => hsep t (List.mem_cons_of_mem _ ht)
    have hs : '/' ∉ s := hsep s (List.mem_cons_self _ _)
    have hg' := stepSeg_good rooted st s hg hs
    have hr' : rooted = true → (stepSeg rooted st s).1 = 0 := by
      intro h; subst h; exact stepSeg_rooted st s (hr rfl)
    have hdd : ∀ t : Nat × List (List Char), t.1 = st.1 →
        stateDotdot rooted t = stateDotdot rooted st := by
      intro t ht; simp [stateDotdot, ht]
    rw [slashed, cleanRun_sep, List.foldl_cons, ← ih _ hg' hr' hsep']
    by_cases h0 : s = []
    · subst h0
      simp [stepSeg]
    · by_cases h1 : s = ['.']
      · subst h1
        rw [List.singleton_append, cleanRun_dot _ _ _ _ (slashed_boundary ss)]
        simp [stepSeg]
      · by_cases h2 : s = ['.', '.']
        · subst h2
          have hcons : ['.', '.'] ++ slashed ss = '.' :: '.' :: slashed ss := rfl
          rw [hcons, cleanRun_dotdot _ _ _ _ (slashed_boundary ss)]
          obtain ⟨k, l⟩ := st
          rcases List.eq_nil_or_concat l with hl | ⟨l', x, hl⟩
          · subst hl
            have hlen : ¬ (stateBuf rooted (k, [])).length > stateDotdot rooted (k, []) := by
              simp [stateBuf, stateDotdot, stateSegs]
            rw [if_neg hlen]
            cases rooted
            · have hup := stateBuf_up k
              have hstep : stepSeg false (k, []) ['.', '.'] = (k + 1, []) := by
                simp [stepSeg]
              simp only [Bool.not_false, if_true, hstep]
              rw [hup.1, hup.2]
            · have hstep : stepSeg true (k, []) ['.', '.'] = (k, []) := by
                simp [stepSeg]
              simp [hstep]
          · rw [List.concat_eq_append] at hl
            subst hl
            have hpop := stateBuf_pop rooted k l' x hg
            have hstep : stepSeg rooted (k, l' ++ [x]) ['.', '.'] = (k, l') := by
              simp [stepSeg]
            rw [if_pos hpop.1, hpop.2, hstep, hdd (k, l') rfl]
        · have hstep : stepSeg rooted st s = (st.1, st.2 ++ [s]) := by
            simp [stepSeg, h0, h1, h2]
          rw [cleanRun_seg rooted s _ _ _ h0 hs h1 h2 (slashed_boundary ss), hstep,
            stateBuf_push rooted st s hg, hdd (st.1, st.2 ++ [s]) rfl]

theorem goodState_init : goodState (0, []) := by
  intro s hs
  simp at hs

theorem goodState_files : goodState (0, [['f', 'i', 'l', 'e', 's']]) := by
  intro s hs
  have : s = ['f', 'i', 'l', 'e', 's'] := by simpa using hs
  subst this
  decide

/-- The value of `filepath.Clean` on a non-empty path, from its segments `ss` (given through
`'/' :: q = slashed ss`): the elements `stepSeg` keeps, rendered. -/
theorem cleanChars_state (ss : List (List Char)) (q : List Char)
    (hq : '/' :: q = slashed ss) (hne : q ≠ []) (hsep : ∀ s ∈ ss, '/' ∉ s) :
    cleanChars q
      = render (q.headD '.' == '/')
          (stateSegs (ss.foldl (stepSeg (q.headD '.' == '/')) (0, []))) := by
  obtain ⟨c, q', rfl⟩ := List.exists_cons_of_ne_nil hne
  have hrun : ∀ r : Bool, cleanRun r (c :: q') (rootPrefix r) (rootPrefix r).length
      = stateBuf r (ss.foldl (stepSeg r) (0, [])) := by
    intro r
    have h := cleanRun_state r ss (0, []) goodState_init (fun _ => rfl) hsep
    have hb : stateBuf r (0, []) = rootPrefix r := by simp [stateBuf, stateSegs, joinSegs]
    have hd : stateDotdot r (0, []) = (rootPrefix r).length := by simp [stateDotdot, joinSegs]
    rw [hb, hd, ← hq, cleanRun_sep] at h
    exact h
  by_cases hc : c = '/'
  · subst hc
    have h1 : cleanLoop true ('/' :: q').length q' ['/'] 1
        = stateBuf true (ss.foldl (stepSeg true) (0, [])) := by
      rw [← hrun true, cleanRun_sep]
      exact cleanLoop_fuel true _ _ _ _ _ (by simp) (le_refl _)
    rw [List.length_cons] at h1
    simp [cleanChars, IsPathSeparator, h1, render, stateBuf, rootPrefix]
  · have h1 : cleanLoop false (c :: q').length (c :: q') [] 0
        = stateBuf false (ss.foldl (stepSeg false) (0, [])) := hrun false
    have hcb : (c == '/') = false := by simpa using hc
    have hgood := foldl_stepSeg_good false ss (0, []) goodState_init hsep
    simp only [cleanChars, List.isEmpty_cons, Bool.false_eq_true, if_false, List.headD_cons,
      IsPathSeparator, hcb, h1, render, stateBuf, rootPrefix, List.nil_append]
    by_cases he : stateSegs (ss.foldl (stepSeg false) (0, [])) = []
    · simp [he, joinSegs]
    · have hj := joinSegs_ne_nil _ he (stateSegs_ne_nil _ hgood)
      have hl : (joinSegs (stateSegs (ss.foldl (stepSeg false) (0, [])))).length ≠ 0 := by
        simpa [List.length_eq_zero] using hj
      simp [he, hl]

/-! ## The elements `filepath.Clean` keeps -/

theorem foldl_stepSeg_push (rooted : Bool) (l : List (List Char)) :
    ∀ (k : Nat) (u : List (List Char)),
      (∀ s ∈ l, s ≠ [] ∧ '/' ∉ s ∧ s ≠ ['.'] ∧ s ≠ ['.', '.']) →
      l.foldl (stepSeg rooted) (k, u) = (k, u ++ l) := by
  induction l with
  | nil => intro k u _; simp
  | cons s l ih =>
    intro k u h
    obtain ⟨h0, _, h1, h2⟩ := h s (List.mem_cons_self _ _)
    have hstep : stepSeg rooted (k, u) s = (k, u ++ [s]) := by simp [stepSeg, h0, h1, h2]
    rw [List.foldl_cons, hstep, ih _ _ (fun t ht => h t (List.mem_cons_of_mem _ ht))]
    simp

theorem foldl_stepSeg_ups (k : Nat) : ∀ j : Nat,
    (List.replicate k ['.', '.']).foldl (stepSeg false) (j, []) = (j + k, []) := by
  induction k with
  | zero => intro j; simp
  | succ k ih =>
    intro j
    have hstep : stepSeg false (j, []) ['.', '.'] = (j + 1, []) := by simp [stepSeg]
    rw [List.replicate_succ, List.foldl_cons, hstep, ih]
    congr 1
    omega

theorem foldl_stepSeg_stateSegs (st : Nat × List (List Char)) (hg : goodState st) :
    (stateSegs st).foldl (stepSeg false) (0, []) = st := by
  obtain ⟨k, l⟩ := st
  rw [stateSegs, List.foldl_append, foldl_stepSeg_ups, foldl_stepSeg_push false l _ _ hg]
  simp

/-- Cleaning the cleaned form of a relative path after any prefix gives what cleaning the
path itself after that prefix gives. -/
theorem foldl_stepSeg_stateSegs_append (S : Nat × List (List Char)) (P : List (List Char)) :
    ∀ T : Nat × List (List Char), goodState T → (∀ s ∈ P, '/' ∉ s) →
      (stateSegs T ++ P).foldl (stepSeg false) S
        = (stateSegs (P.foldl (stepSeg false) T)).foldl (stepSeg false) S := by
  induction P with
  | nil => intro T _ _; simp
  | cons s P ih =>
    intro T hg hsep
    have hs : '/' ∉ s := hsep s (List.mem_cons_self _ _)
    have hg' := stepSeg_good false T s hg hs
    rw [List.foldl_cons, ← ih _ hg' (fun t ht => hsep t (List.mem_cons_of_mem _ ht))]
    rw [List.foldl_append, List.foldl_append, List.foldl_cons]
    congr 1
    -- one segment: `step (fold S (segs T)) s = fold S (segs (step T s))`
    obtain ⟨k, l⟩ := T
    by_cases hskip : s = [] ∨ s = ['.']
    · simp [stepSeg, hskip]
    · by_cases h2 : s = ['.', '.']
      · subst h2
        rcases List.eq_nil_or_concat l with hl | ⟨l', x, hl⟩
        · subst hl
          have hstep : stepSeg false (k, []) ['.', '.'] = (k + 1, []) := by simp [stepSeg]
          rw [hstep]
          simp [stateSegs, List.replicate_succ', List.foldl_append]
        · rw [List.concat_eq_append] at hl
          subst hl
          have hx := hg x (by simp)
          have hstep : stepSeg false (k, l' ++ [x]) ['.', '.'] = (k, l') := by simp [stepSeg]
          rw [hstep]
          have hsegs : stateSegs (k, l' ++ [x]) = stateSegs (k, l') ++ [x] := by
            simp [stateSegs]
          rw [hsegs, List.foldl_append, List.foldl_cons, List.foldl_nil]
          generalize (stateSegs (k, l')).foldl (stepSeg false) S = U
          obtain ⟨j, u⟩ := U
          have hpush : stepSeg false (j, u) x = (j, u ++ [x]) := by
            simp [stepSeg, hx.1, hx.2.2.1, hx.2.2.2]
          rw [hpush]
          simp [stepSeg]
      · have hstep : stepSeg false (k, l) s = (k, l ++ [s]) := by
          have h0 : s ≠ [] := fun h => hskip (Or.inl h)
          have h1 : s ≠ ['.'] := fun h => hskip (Or.inr h)
          simp [stepSeg, h0, h1, h2]
        rw [hstep]
        simp [stateSegs, List.foldl_append]

theorem foldl_stepSeg_no_climb (ss : List (List Char)) :
    ∀ l : List (List Char), climbsAbove l.length ss = false →
      ss.foldl (stepSeg true) (0, l) = ss.foldl (stepSeg false) (0, l) := by
  induction ss with
  | nil => intro l _; rfl
  | cons s ss ih =>
    intro l h
    rw [climbsAbove] at h
    rw [List.foldl_cons, List.foldl_cons]
    by_cases h2 : s = ['.', '.']
    · subst h2
      rcases List.eq_nil_or_concat l with hl | ⟨l', x, hl⟩
      · subst hl
        simp at h
      · rw [List.concat_eq_append] at hl
        subst hl
        have hstep : ∀ r, stepSeg r (0, l' ++ [x]) ['.', '.'] = (0, l') := by
          intro r; simp [stepSeg]
        simp only [if_true, List.length_append, List.length_singleton, Nat.add_one_ne_zero,
          if_false, Nat.add_sub_cancel] at h
        rw [hstep, hstep]
        exact ih l' h
    · simp only [h2, if_false] at h
      by_cases hr : realSeg s = true
      · have h0 : s ≠ [] := by intro h0; subst h0; simp [realSeg] at hr
        have h1 : s ≠ ['.'] := by intro h1; subst h1; simp [realSeg] at hr
        have hstep : ∀ r, stepSeg r (0, l) s = (0, l ++ [s]) := by
          intro r; simp [stepSeg, h0, h1, h2]
        simp only [hr, if_true] at h
        rw [hstep, hstep]
        exact ih _ (by simpa using h)
      · have hskip : s = [] ∨ s = ['.'] := by
          by_contra hc
          push_neg at hc
          exact hr (by simp [realSeg, hc.1, hc.2])
        have hstep : ∀ r, stepSeg r (0, l) s = (0, l) := by
          intro r; simp [stepSeg, hskip]
        simp only [hr, Bool.false_eq_true, if_false] at h
        rw [hstep, hstep]
        exact ih l h

theorem foldl_stepSeg_rooted (ss : List (List Char)) :
    ∀ st : Nat × List (List Char), st.1 = 0 → (ss.foldl (stepSeg true) st).1 = 0 := by
  induction ss with
  | nil => intro st h; exact h
  | cons s ss ih => intro st h; exact ih _ (stepSeg_rooted st s h)

theorem foldl_stepSeg_ups_mono (ss : List (List Char)) :
    ∀ st : Nat × List (List Char), st.1 ≤ (ss.foldl (stepSeg false) st).1 := by
  induction ss with
  | nil => intro st; exact le_refl _
  | cons s ss ih =>
    intro st
    have hstep : st.1 ≤ (stepSeg false st s).1 := by
      unfold stepSeg
      split_ifs <;> simp
    exact le_trans hstep (ih _)

/-- A relative path with a `..` that climbs above its start keeps a leading `..`. -/
theorem foldl_stepSeg_climb (ss : List (List Char)) :
    ∀ l : List (List Char), climbsAbove l.length ss = true →
      0 < (ss.foldl (stepSeg false) (0, l)).1 := by
  induction ss with
  | nil => intro l h; simp [climbsAbove] at h
  | cons s ss ih =>
    intro l h
    rw [climbsAbove] at h
    rw [List.foldl_cons]
    by_cases h2 : s = ['.', '.']
    · subst h2
      rcases List.eq_nil_or_concat l with hl | ⟨l', x, hl⟩
      · subst hl
        have hstep : stepSeg false (0, []) ['.', '.'] = (1, []) := by simp [stepSeg]
        rw [hstep]
        exact lt_of_lt_of_le Nat.one_pos (foldl_stepSeg_ups_mono ss (1, []))
      · rw [List.concat_eq_append] at hl
        subst hl
        have hstep : stepSeg false (0, l' ++ [x]) ['.', '.'] = (0, l') := by simp [stepSeg]
        simp only [if_true, List.length_append, List.length_singleton, Nat.add_one_ne_zero,
          if_false, Nat.add_sub_cancel] at h
        rw [hstep]
        exact ih l' h
    · simp only [h2, if_false] at h
      by_cases hr : realSeg s = true
      · have h0 : s ≠ [] := by intro h0; subst h0; simp [realSeg] at hr
        have h1 : s ≠ ['.'] := by intro h1; subst h1; simp [realSeg] at hr
        have hstep : stepSeg false (0, l) s = (0, l ++ [s]) := by simp [stepSeg, h0, h1, h2]
        simp only [hr, if_true] at h
        rw [hstep]
        exact ih _ (by simpa using h)
      · have hskip : s = [] ∨ s = ['.'] := by
          by_contra hc
          push_neg at hc
          exact hr (by simp [realSeg, hc.1, hc.2])
        have hstep : stepSeg false (0, l) s = (0, l) := by simp [stepSeg, hskip]
        simp only [hr, Bool.false_eq_true, if_false] at h
        rw [hstep]
        exact ih l h

/-- A rooted path with a `..` that climbs above its root: what is kept of it below `files`
when read as a relative path is not `files` followed by what is kept of it as a rooted
path. -/
theorem foldl_stepSeg_climb_differs (ss : List (List Char)) :
    ∀ l : List (List Char), climbsAbove l.length ss = true →
      stateSegs (ss.foldl (stepSeg false) (0, ['f', 'i', 'l', 'e', 's'] :: l))
        ≠ ['f', 'i', 'l', 'e', 's'] :: (ss.foldl (stepSeg true) (0, l)).2 := by
  induction ss with
  | nil => intro l h; simp [climbsAbove] at h
  | cons s ss ih =>
    intro l h
    rw [climbsAbove] at h
    rw [List.foldl_cons, List.foldl_cons]
    by_cases h2 : s = ['.', '.']
    · subst h2
      rcases List.eq_nil_or_concat l with hl | ⟨l', x, hl⟩
      · subst hl
        have hstep1 : stepSeg false (0, [['f', 'i', 'l', 'e', 's']]) ['.', '.'] = (0, []) := by
          simp [stepSeg]
        have hstep2 : stepSeg true (0, []) ['.', '.'] = (0, []) := by simp [stepSeg]
        rw [hstep1, hstep2]
        by_cases hc : climbsAbove ([] : List (List Char)).length ss = true
        · have hk := foldl_stepSeg_climb ss [] hc
          obtain ⟨k, hk'⟩ := Nat.exists_eq_succ_of_ne_zero (Nat.pos_iff_ne_zero.mp hk)
          intro heq
          rw [stateSegs, hk', List.replicate_succ] at heq
          have := (List.cons.inj heq).1
          exact absurd this (by decide)
        · have hc' : climbsAbove ([] : List (List Char)).length ss = false := by
            simpa using hc
          have hUR := foldl_stepSeg_no_climb ss [] hc'
          have h0 := foldl_stepSeg_rooted ss (0, []) rfl
          rw [← hUR]
          intro heq
          rw [stateSegs, h0] at heq
          have hlen := congrArg List.length heq
          simp at hlen
      · rw [List.concat_eq_append] at hl
        subst hl
        have hstep1 : stepSeg false (0, ['f', 'i', 'l', 'e', 's'] :: (l' ++ [x])) ['.', '.']
            = (0, ['f', 'i', 'l', 'e', 's'] :: l') := by
          have : (['f', 'i', 'l', 'e', 's'] :: (l' ++ [x])).dropLast
              = ['f', 'i', 'l', 'e', 's'] :: l' := by
            rw [← List.cons_append, List.dropLast_concat]
          simp [stepSeg, this]
        have hstep2 : stepSeg true (0, l' ++ [x]) ['.', '.'] = (0, l') := by simp [stepSeg]
        simp only [if_true, List.length_append, List.length_singleton, Nat.add_one_ne_zero,
          if_false, Nat.add_sub_cancel] at h
        rw [hstep1, hstep2]
        exact ih l' h
    · simp only [h2, if_false] at h
      by_cases hr : realSeg s = true
      · have h0 : s ≠ [] := by intro h0; subst h0; simp [realSeg] at hr
        have h1 : s ≠ ['.'] := by intro h1; subst h1; simp [realSeg] at hr
        have hstep : ∀ (r : Bool) (u : List (List Char)), stepSeg r (0, u) s = (0, u ++ [s]) := by
          intro r u; simp [stepSeg, h0, h1, h2]
        simp only [hr, if_true] at h
        rw [hstep, hstep, List.cons_append]
        exact ih _ (by simpa using h)
      · have hskip : s = [] ∨ s = ['.'] := by
          by_contra hc
          push_neg at hc
          exact hr (by simp [realSeg, hc.1, hc.2])
        have hstep : ∀ (r : Bool) (u : List (List Char)), stepSeg r (0, u) s = (0, u) := by
          intro r u; simp [stepSeg, hskip]
        simp only [hr, Bool.false_eq_true, if_false] at h
        rw [hstep, hstep]
        exact ih l h

/-! ## `filepath.Base` -/

theorem lastElemStart_spec (path : List Char) : ∀ k j, lastElemStart path k ≤ j → j < k →
    IsPathSeparator (path.getD j '/') = false := by
  intro k
  induction k with
  | zero => intro j _ h; omega
  | succ k ih =>
    intro j h1 h2
    rw [lastElemStart] at h1
    split_ifs at h1 with h
    · by_cases hj : j = k
      · subst hj; simpa using h
      · exact ih j h1 (by omega)
    · omega

theorem baseChars_ne_nil (path : List Char) : baseChars path ≠ [] := by
  simp only [baseChars]
  split_ifs with h1 h2
  · simp
  · simp
  · intro h
    rw [h] at h2
    exact h2 rfl

theorem baseChars_no_sep (path : List Char) :
    baseChars path = ['/'] ∨ '/' ∉ baseChars path := by
  simp only [baseChars]
  split_ifs with h1 h2
  · right; simp
  · left; rfl
  · right
    intro hmem
    obtain ⟨i, hi, hget⟩ := List.mem_iff_getElem.mp hmem
    rw [List.getElem_drop] at hget
    rw [List.length_drop] at hi
    have hspec := lastElemStart_spec (path.take (stripTrailing path path.length))
      (path.take (stripTrailing path path.length)).length
      (lastElemStart (path.take (stripTrailing path path.length))
        (path.take (stripTrailing path path.length)).length + i)
      (by omega) (by omega)
    rw [List.getD_eq_getElem _ _ (by omega), hget] at hspec
    simp [IsPathSeparator] at hspec

theorem lastElemStart_of_no_sep (path : List Char) : ∀ k,
    (∀ j, j < k → IsPathSeparator (path.getD j '/') = false) → lastElemStart path k = 0 := by
  intro k
  induction k with
  | zero => intro _; rfl
  | succ k ih =>
    intro h
    rw [lastElemStart]
    simp only [h k (Nat.lt_succ_self k), Bool.not_false, if_true]
    exact ih (fun j hj => h j (Nat.lt_succ_of_lt hj))

/-- The base name of a non-empty name without separator is the name itself. -/
theorem baseChars_of_no_sep (b : List Char) (hne : b ≠ []) (hsep : '/' ∉ b) :
    baseChars b = b := by
  have hget : ∀ (j : Nat) (d : Char), j < b.length → IsPathSeparator (b.getD j d) = false := by
    intro j d hj
    rw [List.getD_eq_getElem _ _ hj]
    have hmem : b[j] ∈ b := List.getElem_mem _
    have : b[j] ≠ '/' := fun h => hsep (h ▸ hmem)
    simp [IsPathSeparator, this]
  obtain ⟨n, hn⟩ := Nat.exists_eq_succ_of_ne_zero (fun h => hne (List.length_eq_zero.mp h))
  have hstrip : stripTrailing b b.length = b.length := by
    rw [hn, stripTrailing]
    simp only [hget n '.' (by omega), Bool.false_eq_true, if_false]
  have hlast : lastElemStart b b.length = 0 :=
    lastElemStart_of_no_sep b b.length (fun j hj => hget j '/' hj)
  have hempty : b.isEmpty = false := by
    cases b with
    | nil => exact absurd rfl hne
    | cons c t => rfl
  simp only [baseChars, hstrip, List.take_length, hlast, List.drop_zero, hempty,
    Bool.false_eq_true, if_false]

/-- The Go `filepath.Base` is idempotent. -/
theorem Base_idem (f : String) : Base (Base f) = Base f := by
  apply String.ext
  show baseChars (baseChars f.data) = baseChars f.data
  rcases baseChars_no_sep f.data with h | h
  · rw [h]; decide
  · exact baseChars_of_no_sep _ (baseChars_ne_nil _) h

/-! ## `filepath.Join` -/

theorem Join_data (a b : String) (ha : a.data ≠ []) :
    (Join a b).data = cleanChars (a.data ++ '/' :: b.data) := by
  have ha' : a ≠ "" := fun h => ha (by rw [h])
  simp [Join, joinElems, ha', stringsJoin, Clean, String.data_append]

theorem Join_empty_data (b : String) (hb : b.data ≠ []) :
    (Join "" b).data = cleanChars b.data := by
  have hb' : b ≠ "" := fun h => hb (by rw [h])
  simp [Join, joinElems, hb', stringsJoin, Clean]

/-- Cleaning `./files` followed by segments without `..`: the real segments under `files`. -/
theorem cleanChars_baseDir (ss : List (List Char)) (hsep : ∀ s ∈ ss, '/' ∉ s)
    (hdd : ['.', '.'] ∉ ss) :
    cleanChars (baseDir.data ++ slashed ss)
      = ['f', 'i', 'l', 'e', 's'] ++ slashed (ss.filter realSeg) := by
  have hq : '/' :: (baseDir.data ++ slashed ss)
      = slashed (['.'] :: ['f', 'i', 'l', 'e', 's'] :: ss) := by
    simp [baseDir, slashed]
  have hsep' : ∀ s ∈ (['.'] :: ['f', 'i', 'l', 'e', 's'] :: ss), '/' ∉ s := by
    intro s hs
    rcases List.mem_cons.mp hs with rfl | hs
    · decide
    · rcases List.mem_cons.mp hs with rfl | hs
      · decide
      · exact hsep s hs
  have hdd' : ['.', '.'] ∉ (['.'] :: ['f', 'i', 'l', 'e', 's'] :: ss) := by
    intro h
    rcases List.mem_cons.mp h with h | h
    · exact absurd h (by decide)
    · rcases List.mem_cons.mp h with h | h
      · exact absurd h (by decide)
      · exact hdd h
  rw [cleanChars_of_slashed _ _ hq (by simp [baseDir]) hsep' hdd']
  have h1 : realSeg ['.'] = false := by decide
  have h2 : realSeg ['f', 'i', 'l', 'e', 's'] = true := by decide
  simp [baseDir, render, List.filter_cons, h1, h2, joinSegs]

theorem segments_dotdot (p : String) (h : ".." ∉ segments p) :
    ['.', '.'] ∉ p.data.splitOn '/' := by
  intro hmem
  apply h
  unfold segments
  exact List.mem_map.mpr ⟨['.', '.'], hmem, rfl⟩

theorem Join_baseDir_data (p : String) (h : ".." ∉ segments p) :
    (Join baseDir p).data
      = ['f', 'i', 'l', 'e', 's'] ++ slashed ((p.data.splitOn '/').filter realSeg) := by
  rw [Join_data _ _ (by decide), ← slashed_splitOn]
  exact cleanChars_baseDir _ (splitOn_no_sep _) (segments_dotdot p h)

theorem HasPrefix_files (rest : List Char) :
    HasPrefix (String.mk (['f', 'i', 'l', 'e', 's'] ++ rest)) (Clean baseDir) = true := by
  have : (Clean baseDir).data = ['f', 'i', 'l', 'e', 's'] := by decide
  simp [HasPrefix, this]

theorem isEntryName_spec (n : String) (hn : isEntryName n = true) :
    n.data ≠ [] ∧ '/' ∉ n.data ∧ n.data ≠ ['.'] ∧ n.data ≠ ['.', '.'] := by
  simpa [isEntryName, and_assoc] using hn

theorem stepSeg_entry (rooted : Bool) (st : Nat × List (List Char)) (n : String)
    (hn : isEntryName n = true) : stepSeg rooted st n.data = (st.1, st.2 ++ [n.data]) := by
  obtain ⟨h0, _, h1, h2⟩ := isEntryName_spec n hn
  simp [stepSeg, h0, h1, h2]

/-- Cleaning a non-empty path `a` with segments `A`, followed by a separator and an entry
name: the elements kept of `A`, then the name. -/
theorem cleanChars_join_entry (a : List Char) (A : List (List Char)) (n : String)
    (ha : a ≠ []) (hA : '/' :: a = slashed A) (hsep : ∀ s ∈ A, '/' ∉ s)
    (hn : isEntryName n = true) :
    cleanChars (a ++ '/' :: n.data)
      = render (a.headD '.' == '/')
          (stateSegs (A.foldl (stepSeg (a.headD '.' == '/')) (0, [])) ++ [n.data]) := by
  obtain ⟨_, hnsep, _, _⟩ := isEntryName_spec n hn
  have hq : '/' :: (a ++ '/' :: n.data) = slashed (A ++ [n.data]) := by
    rw [slashed_append, ← hA]
    simp [slashed]
  have hsep' : ∀ s ∈ A ++ [n.data], '/' ∉ s := by
    intro s hs
    rcases List.mem_append.mp hs with hs | hs
    · exact hsep s hs
    · rw [List.mem_singleton.mp hs]; exact hnsep
  obtain ⟨c, t, rfl⟩ := List.exists_cons_of_ne_nil ha
  rw [cleanChars_state _ _ hq (by simp) hsep']
  simp only [List.cons_append, List.headD_cons, List.foldl_append, List.foldl_cons,
    List.foldl_nil, stepSeg_entry _ _ n hn, stateSegs_push]

/-- Cleaning `./files`, a separator and a path with segments `Z`: the elements kept of `Z`
after `files`. -/
theorem cleanChars_baseDir_join (z : List Char) (Z : List (List Char))
    (hZ : '/' :: z = slashed Z) (hsep : ∀ s ∈ Z, '/' ∉ s) :
    cleanChars (baseDir.data ++ '/' :: z)
      = render false (stateSegs (Z.foldl (stepSeg false) (0, [['f', 'i', 'l', 'e', 's']]))) := by
  have hq : '/' :: (baseDir.data ++ '/' :: z)
      = slashed ([['.'], ['f', 'i', 'l', 'e', 's']] ++ Z) := by
    rw [slashed_append, ← hZ]
    simp [baseDir, slashed]
  have hsep' : ∀ s ∈ [['.'], ['f', 'i', 'l', 'e', 's']] ++ Z, '/' ∉ s := by
    intro s hs
    rcases List.mem_append.mp hs with hs | hs
    · simp at hs
      rcases hs with rfl | rfl <;> decide
    · exact hsep s hs
  rw [cleanChars_state _ _ hq (by simp [baseDir]) hsep']
  have hhead : ((baseDir.data ++ '/' :: z).headD '.' == '/') = false := by
    simp [baseDir]
  have hinit : [['.'], ['f', 'i', 'l', 'e', 's']].foldl (stepSeg false) (0, [])
      = (0, [['f', 'i', 'l', 'e', 's']]) := by
    simp [stepSeg]
  rw [hhead, List.foldl_append, hinit]

/-- The elements `filepath.Clean` keeps of a request path that does not climb above its
leading separator are those it keeps of the same path read as a relative one. -/
theorem foldl_stepSeg_request (p : String) (hp : climbsAboveRoot p = false) :
    (p.data.splitOn '/').foldl (stepSeg (p.data.headD '.' == '/')) (0, [])
      = (p.data.splitOn '/').foldl (stepSeg false) (0, []) := by
  by_cases hr : (p.data.headD '.' == '/') = true
  · rw [hr]
    apply foldl_stepSeg_no_climb
    simp only [climbsAboveRoot, hr, Bool.true_and] at hp
    exact hp
  · have : (p.data.headD '.' == '/') = false := by simpa using hr
    rw [this]

/-- The link target `filepath.Join(p, n)` of `fileHandler` for an entry name `n`: the elements
kept of `p`, then `n`. -/
theorem Join_entry_data (p n : String) (hn : isEntryName n = true) :
    (Join p n).data
      = render (p.data.headD '.' == '/')
          (stateSegs ((p.data.splitOn '/').foldl (stepSeg (p.data.headD '.' == '/')) (0, []))
            ++ [n.data]) := by
  obtain ⟨h0, hnsep, _, _⟩ := isEntryName_spec n hn
  by_cases hpe : p.data = []
  · have hp' : p = "" := String.ext hpe
    subst hp'
    rw [Join_empty_data n h0]
    have hq : '/' :: n.data = slashed [n.data] := by simp [slashed]
    rw [cleanChars_state [n.data] n.data hq h0 (by simpa using hnsep)]
    have hhead : (n.data.headD '.' == '/') = false := by
      obtain ⟨c, t, hct⟩ := List.exists_cons_of_ne_nil h0
      have : c ≠ '/' := fun h => hnsep (by rw [hct, h]; exact List.mem_cons_self _ _)
      simp [hct, this]
    have hroot : ("".data.headD '.' == '/') = false := by decide
    have hsplit : ("".data.splitOn '/').foldl (stepSeg false) (0, []) = (0, []) := by
      decide
    rw [hhead, hroot, hsplit, List.foldl_cons, List.foldl_nil, stepSeg_entry _ _ n hn]
    simp [stateSegs]
  · rw [Join_data p n hpe, cleanChars_join_entry p.data _ n hpe (slashed_splitOn _).symm
      (splitOn_no_sep _) hn]

/-- Cleaning `./files`, a separator and a cleaned path that ends in an entry name: the
elements of the cleaned path after `files`, with a leading separator of it ignored. -/
theorem cleanChars_baseDir_render (rooted : Bool) (T : Nat × List (List Char)) (n : String)
    (hT : goodState T) (hn : isEntryName n = true) :
    cleanChars (baseDir.data ++ '/' :: render rooted (stateSegs T ++ [n.data]))
      = render false (stateSegs ((stateSegs T).foldl (stepSeg false)
          (0, [['f', 'i', 'l', 'e', 's']])) ++ [n.data]) := by
  obtain ⟨_, hnsep, _, _⟩ := isEntryName_spec n hn
  have hne : stateSegs T ++ [n.data] ≠ [] := by simp
  have hTsep : ∀ s ∈ stateSegs T ++ [n.data], '/' ∉ s := by
    intro s hs
    rcases List.mem_append.mp hs with hs | hs
    · exact stateSegs_no_sep _ hT s hs
    · rw [List.mem_singleton.mp hs]; exact hnsep
  have hfold : ∀ pre : List (List Char), (pre = [] ∨ pre = [[]]) →
      (pre ++ (stateSegs T ++ [n.data])).foldl (stepSeg false) (0, [['f', 'i', 'l', 'e', 's']])
        = (((stateSegs T).foldl (stepSeg false) (0, [['f', 'i', 'l', 'e', 's']])).1,
            ((stateSegs T).foldl (stepSeg false) (0, [['f', 'i', 'l', 'e', 's']])).2
              ++ [n.data]) := by
    intro pre hpre
    have hskip : pre.foldl (stepSeg false) (0, [['f', 'i', 'l', 'e', 's']])
        = (0, [['f', 'i', 'l', 'e', 's']]) := by
      rcases hpre with rfl | rfl <;> simp [stepSeg]
    rw [List.foldl_append, hskip, List.foldl_append, List.foldl_cons, List.foldl_nil,
      stepSeg_entry _ _ n hn]
  cases rooted
  · have hq : '/' :: render false (stateSegs T ++ [n.data])
        = slashed ([] ++ (stateSegs T ++ [n.data])) := by
      simp [render, slashed_joinSegs _ hne]
    rw [cleanChars_baseDir_join _ _ hq (fun s hs => hTsep s (by simpa using hs)),
      hfold _ (Or.inl rfl), stateSegs_push]
  · have hq : '/' :: render true (stateSegs T ++ [n.data])
        = slashed ([[]] ++ (stateSegs T ++ [n.data])) := by
      simp [render, slashed, slashed_joinSegs _ hne]
    rw [cleanChars_baseDir_join _ _ hq, hfold _ (Or.inr rfl), stateSegs_push]
    intro s hs
    rcases List.mem_append.mp hs with hs | hs
    · rw [List.mem_singleton.mp hs]; simp
    · exact hTsep s hs

/-- The directory a request path resolves to, and its entry `n`: the elements kept of the
path after `files`, then `n`. -/
theorem Join_resolved_entry_data (p n : String) (hn : isEntryName n = true) :
    (Join baseDir p).data
      = render false (stateSegs ((p.data.splitOn '/').foldl (stepSeg false)
          (0, [['f', 'i', 'l', 'e', 's']])))
    ∧ (Join (Join baseDir p) n).data
      = render false (stateSegs ((p.data.splitOn '/').foldl (stepSeg false)
          (0, [['f', 'i', 'l', 'e', 's']])) ++ [n.data]) := by
  have hPsep := splitOn_no_sep p.data
  have hSgood : goodState ((p.data.splitOn '/').foldl (stepSeg false)
      (0, [['f', 'i', 'l', 'e', 's']])) :=
    foldl_stepSeg_good false _ _ goodState_files hPsep
  have hY : (Join baseDir p).data
      = render false (stateSegs ((p.data.splitOn '/').foldl (stepSeg false)
          (0, [['f', 'i', 'l', 'e', 's']]))) := by
    rw [Join_data _ _ (by decide), cleanChars_baseDir_join _ _ (slashed_splitOn _).symm hPsep]
  have hYne : (Join baseDir p).data ≠ [] := by
    rw [hY]
    exact render_ne_nil _ _ (stateSegs_ne_nil _ hSgood)
  refine ⟨hY, ?_⟩
  rw [Join_data _ _ hYne, hY]
  by_cases he : stateSegs ((p.data.splitOn '/').foldl (stepSeg false)
      (0, [['f', 'i', 'l', 'e', 's']])) = []
  · have hdot : render false ([] : List (List Char)) = ['.'] := by decide
    have hq : '/' :: ['.'] = slashed [['.']] := by decide
    rw [he, hdot, cleanChars_join_entry ['.'] [['.']] n (by simp) hq (by decide) hn]
    have h1' : (['.'].headD '.' == '/') = false := by decide
    have h2' : [['.']].foldl (stepSeg false) (0, []) = (0, []) := by decide
    rw [h1', h2']
    simp [stateSegs]
  · have hr : render false (stateSegs ((p.data.splitOn '/').foldl (stepSeg false)
        (0, [['f', 'i', 'l', 'e', 's']])))
        = joinSegs (stateSegs ((p.data.splitOn '/').foldl (stepSeg false)
            (0, [['f', 'i', 'l', 'e', 's']]))) := by
      simp [render, he]
    have hhead := joinSegs_head _ he
      (fun s hs => ⟨stateSegs_ne_nil _ hSgood s hs, stateSegs_no_sep _ hSgood s hs⟩)
    rw [hr, cleanChars_join_entry _ _ n (joinSegs_ne_nil _ he (stateSegs_ne_nil _ hSgood))
      (slashed_joinSegs _ he).symm (stateSegs_no_sep _ hSgood) hn, hhead,
      foldl_stepSeg_stateSegs _ hSgood]

/-- An entry name joined onto the base directory: the cleaned base directory, a separator and
the name. -/
theorem Join_baseDir_entry (b : String) (hb : isEntryName b = true) :
    Join baseDir b = Clean baseDir ++ "/" ++ b := by
  obtain ⟨h0, hsep, h1, h2⟩ := isEntryName_spec b hb
  have hroot : (Clean baseDir).data = ['f', 'i', 'l', 'e', 's'] := by decide
  apply String.ext
  have hq : baseDir.data ++ '/' :: b.data = baseDir.data ++ slashed [b.data] := by
    simp [slashed]
  rw [Join_data _ _ (by decide), hq, cleanChars_baseDir _ (by simpa using hsep)
    (by simpa using Ne.symm h2)]
  have hr : realSeg b.data = true := by simp [realSeg, h0, h1]
  simp [List.filter_cons, hr, slashed, String.data_append, hroot]

/-- The base name of a filename is an entry name unless it is `.`, `..` or `/`. -/
theorem isEntryName_Base (f : String)
    (hb : Base f ≠ "." ∧ Base f ≠ ".." ∧ Base f ≠ "/") : isEntryName (Base f) = true := by
  obtain ⟨hb1, hb2, hb3⟩ := hb
  have hne := baseChars_ne_nil f.data
  have h1 : baseChars f.data ≠ ['.'] := fun h => hb1 (String.ext h)
  have h2 : baseChars f.data ≠ ['.', '.'] := fun h => hb2 (String.ext h)
  have h3 : baseChars f.data ≠ ['/'] := fun h => hb3 (String.ext h)
  have hsep : '/' ∉ baseChars f.data := (baseChars_no_sep f.data).resolve_left h3
  simp [isEntryName, Base, hne, h1, h2, hsep]

/-- What `r.FormFile` returns for a part `file` with a non-empty filename. -/
theorem FormFile_of_part (r : Request) (content : List Nat) (f : String)
    (hpart : r.filePart = some (content, f)) (hf : f ≠ "") :
    FormFile r = some (content, ⟨Base f⟩) := by
  simp [FormFile, hpart, hf]

/-- The result of `uploadHandler` once `r.FormFile` has returned a file and its header. -/
theorem uploadHandler_of_file (env : UploadEnv) (disk : Disk) (r : Request)
    (file : List Nat) (handler : FileHeader) (hm : r.Method = MethodPost)
    (hpf : r.parseFails = false) (hf : FormFile r = some (file, handler)) :
    uploadHandler env disk r
      = match env.Create (dstPath handler) with
        | some _ =>
          (internalServerError, disk,
            [.parseMultipartForm, .formFile, .create (dstPath handler)])
        | none =>
          match env.copyFault with
          | some k =>
            (internalServerError,
              Function.update (Function.update disk (dstPath handler) (some []))
                (dstPath handler) (some (file.take k)),
              [.parseMultipartForm, .formFile, .create (dstPath handler),
                .copy (dstPath handler)])
          | none =>
            (⟨200, "", "File " ++ handler.Filename ++ " uploaded successfully."⟩,
              Function.update (Function.update disk (dstPath handler) (some []))
                (dstPath handler) (some file),
              [.parseMultipartForm, .formFile, .create (dstPath handler),
                .copy (dstPath handler)]) := by
  have he : ∀ t : String, fprint newWriter t = ⟨200, "", t⟩ := by
    intro t
    simp [fprint, newWriter]
  have hi : httpError newWriter "Internal Server Error" 500 = internalServerError := by
    decide
  simp only [uploadHandler, hm, hpf, hf, ne_eq, not_true_eq_false, if_false,
    Bool.false_eq_true, he, hi]

/-! ## The listing loop of `fileHandler` -/

theorem writeEntries_status (urlPath : String) (files : List DirEntry) (w : Response) :
    (writeEntries urlPath files w).status = w.status := by
  induction files generalizing w with
  | nil => rfl
  | cons f fs ih => simp [writeEntries, ih, fprint]

theorem writeEntries_contentType (urlPath : String) (files : List DirEntry) (w : Response) :
    (writeEntries urlPath files w).contentType = w.contentType := by
  induction files generalizing w with
  | nil => rfl
  | cons f fs ih => simp [writeEntries, ih, fprint]

theorem writeEntries_body (urlPath : String) (files : List DirEntry) (w : Response) :
    (writeEntries urlPath files w).body
      = w.body ++ String.join (files.map fun f => listItem urlPath f.Name) := by
  induction files generalizing w with
  | nil => simp [writeEntries, String.join]
  | cons f fs ih =>
    rw [writeEntries, ih]
    apply String.ext
    simp [fprint, listItem, String.data_append, List.append_assoc]

/-! ## Path containment of `fileHandler` -/

/-- C1 (defect of the code): the traversal guard of `fileHandler` compares strings, not path
components. The path `/../files-secret` joins to `files-secret`, a sibling of the base
directory, which has the string prefix `files`: the request is not answered 403, `os.Stat` and
`os.ReadDir` run on the sibling and its listing is sent. -/
theorem sibling_directory_listed :
    Join baseDir "/../files-secret" = "files-secret"
    ∧ HasPrefix "files-secret" "files/" = false
    ∧ fileHandler siblingEnv (getRequest "/../files-secret")
      = (⟨200, "text/html", "<ul>\n<li><a href=\"/files-secret/key.pem\">key.pem</a></li></ul>\n"⟩,
          [.stat "files-secret", .readDir "files-secret"]) := by
  decide

/-- C6 fails as stated: the path `/secret.txt` has no `..` segment and joins to
`files/secret.txt`, yet the GET is answered 403 when the file is one `http.ServeFile` may not
open. -/
theorem in_root_file_answered_403 :
    ".." ∉ segments "/secret.txt"
    ∧ Join baseDir "/secret.txt" = "files/secret.txt"
    ∧ fileHandler forbiddenFileEnv (getRequest "/secret.txt")
      = (⟨403, "text/plain; charset=utf-8", "403 Forbidden\n"⟩,
          [.stat "files/secret.txt", .serveFile "files/secret.txt"]) := by
  decide

/-- C6 as amended: for a request path whose segments are all different from `..` (the empty
path and `/` included), `filepath.Join(baseDir, p)` is `files` or begins with `files/`, so the
traversal guard does not reject a GET for it: `fileHandler` goes on to `os.Stat` of the joined
path, and the answer is 403 only when the path is a regular file and `http.ServeFile`, called
on it, answers 403 itself. The empty path resolves to `files`. -/
theorem in_root_path_not_rejected (env : FsEnv) (r : Request) (hm : r.Method = MethodGet)
    (hp : ".." ∉ segments r.URLPath) :
    (Join baseDir r.URLPath = Clean baseDir
      ∨ HasPrefix (Join baseDir r.URLPath) (Clean baseDir ++ "/") = true)
    ∧ HasPrefix (Join baseDir r.URLPath) (Clean baseDir) = true
    ∧ (fileHandler env r).2.head? = some (.stat (Join baseDir r.URLPath))
    ∧ ((fileHandler env r).1.status = 403 →
        env.Stat (Join baseDir r.URLPath) = .ok ⟨false⟩
        ∧ fileHandler env r
          = (env.ServeFile r (Join baseDir r.URLPath),
              [.stat (Join baseDir r.URLPath), .serveFile (Join baseDir r.URLPath)]))
    ∧ Join baseDir "" = "files" ∧ Clean baseDir = "files" := by
  have hdata := Join_baseDir_data r.URLPath hp
  have hjoin : Join baseDir r.URLPath
      = String.mk (['f', 'i', 'l', 'e', 's']
          ++ slashed ((r.URLPath.data.splitOn '/').filter realSeg)) := String.ext hdata
  have hguard : HasPrefix (Join baseDir r.URLPath) (Clean baseDir) = true := by
    rw [hjoin]
    exact HasPrefix_files _
  have hroot : (Clean baseDir).data = ['f', 'i', 'l', 'e', 's'] := by decide
  refine ⟨?_, hguard, ?_, ?_, by decide, by decide⟩
  · cases hR : (r.URLPath.data.splitOn '/').filter realSeg with
    | nil =>
      left
      apply String.ext
      rw [hdata, hR, hroot]
      simp [slashed]
    | cons t ts =>
      right
      simp [HasPrefix, hdata, hR, hroot, slashed, String.data_append]
  · simp only [fileHandler, hm, hguard, if_true, Bool.not_true, Bool.false_eq_true, if_false]
    cases env.Stat (Join baseDir r.URLPath) with
    | error err => by_cases hn : err.notExist = true <;> simp [hn]
    | ok info =>
      by_cases hd : info.IsDir = true
      · cases env.ReadDir (Join baseDir r.URLPath) <;> simp [hd]
      · simp [hd]
  · simp only [fileHandler, hm, hguard, if_true, Bool.not_true, Bool.false_eq_true, if_false]
    cases hs : env.Stat (Join baseDir r.URLPath) with
    | error err =>
      by_cases hn : err.notExist = true <;>
        simp [hn, httpNotFound, httpError, fprint, setContentType, newWriter]
    | ok info =>
      by_cases hd : info.IsDir = true
      · cases env.ReadDir (Join baseDir r.URLPath) with
        | error e => simp [hd, httpError, fprint, setContentType, newWriter]
        | ok files =>
          simp [hd, fprint, writeEntries_status, setContentType, newWriter]
      · have hinfo : info = ⟨false⟩ := by
          cases info with
          | mk d => simp at hd; simp [hd]
        subst hinfo
        intro _
        simp

/-- Witness of C6 as amended: the path `/docs/./a//b`, which has `.` and empty segments, in a
filesystem of directories, and the path `/secret.txt` of a file that may not be opened. -/
theorem in_root_path_not_rejected_witness :
    HasPrefix (Join baseDir "/docs/./a//b") (Clean baseDir) = true
    ∧ (fileHandler dirEnv (getRequest "/docs/./a//b")).2.head?
      = some (.stat (Join baseDir "/docs/./a//b"))
    ∧ fileHandler forbiddenFileEnv (getRequest "/secret.txt")
      = (forbiddenFileEnv.ServeFile (getRequest "/secret.txt") (Join baseDir "/secret.txt"),
          [.stat (Join baseDir "/secret.txt"), .serveFile (Join baseDir "/secret.txt")]) :=
  have h := in_root_path_not_rejected dirEnv (getRequest "/docs/./a//b") rfl (by decide)
  have h2 := in_root_path_not_rejected forbiddenFileEnv (getRequest "/secret.txt") rfl
    (by decide)
  ⟨h.2.1, h.2.2.1, (h2.2.2.2.1 (by decide)).2⟩

/-! ## Responses of `fileHandler` -/

/-- C7: for a GET whose path passes the containment check, an `os.Stat` error that
`os.IsNotExist` recognises gives 404; any other `os.Stat` error, and any `os.ReadDir` error on
a directory, gives the one fixed response 500 `Internal Server Error`, in which neither the
text of the error nor the path occurs. -/
theorem metadata_error_mapping (env : FsEnv) (r : Request) (hm : r.Method = MethodGet)
    (hp : HasPrefix (Join baseDir r.URLPath) (Clean baseDir) = true) :
    (∀ err, env.Stat (Join baseDir r.URLPath) = .error err → err.notExist = true →
        (fileHandler env r).1 = ⟨404, "text/plain; charset=utf-8", "404 page not found\n"⟩)
    ∧ (∀ err, env.Stat (Join baseDir r.URLPath) = .error err → err.notExist = false →
        (fileHandler env r).1 = internalServerError)
    ∧ (∀ info err, env.Stat (Join baseDir r.URLPath) = .ok info → info.IsDir = true →
        env.ReadDir (Join baseDir r.URLPath) = .error err →
        (fileHandler env r).1 = internalServerError) := by
  refine ⟨?_, ?_, ?_⟩
  · intro err hs hn
    simp only [fileHandler, hm, hp, hs, hn, if_true, Bool.not_true, Bool.false_eq_true, if_false]
    rfl
  · intro err hs hn
    simp only [fileHandler, hm, hp, hs, hn, if_true, Bool.not_true, Bool.false_eq_true, if_false]
    rfl
  · intro info err hs hd hr
    simp only [fileHandler, hm, hp, hs, hd, hr, if_true, Bool.not_true, Bool.false_eq_true, if_false]
    rfl

/-- Witness of C7: a missing entry, a permission error of `os.Stat` and an I/O error of
`os.ReadDir`, each on the path `/docs`. -/
theorem metadata_error_mapping_witness :
    (fileHandler (statErrEnv ⟨true, "stat files/docs: no such file or directory"⟩)
        (getRequest "/docs")).1 = ⟨404, "text/plain; charset=utf-8", "404 page not found\n"⟩
    ∧ (fileHandler (statErrEnv ⟨false, "stat files/docs: permission denied"⟩)
        (getRequest "/docs")).1 = internalServerError
    ∧ (fileHandler (readDirErrEnv ⟨false, "open files/docs: input/output error"⟩)
        (getRequest "/docs")).1 = internalServerError :=
  ⟨(metadata_error_mapping (statErrEnv ⟨true, "stat files/docs: no such file or directory"⟩)
      (getRequest "/docs") rfl (by decide)).1 _ rfl rfl,
   (metadata_error_mapping (statErrEnv ⟨false, "stat files/docs: permission denied"⟩)
      (getRequest "/docs") rfl (by decide)).2.1 _ rfl rfl,
   (metadata_error_mapping (readDirErrEnv ⟨false, "open files/docs: input/output error"⟩)
      (getRequest "/docs") rfl (by decide)).2.2 ⟨true⟩ _ rfl rfl rfl⟩

/-- C8: a request whose method is not GET is answered 405 by `fileHandler` whatever its path,
without any filesystem call, and a request whose method is not POST is answered 405 by
`uploadHandler` without parsing the body and with the disk untouched. -/
theorem method_gate (fenv : FsEnv) (uenv : UploadEnv) (disk : Disk) (r1 r2 : Request)
    (h1 : r1.Method ≠ MethodGet) (h2 : r2.Method ≠ MethodPost) :
    fileHandler fenv r1 = (⟨405, "text/plain; charset=utf-8", "Method Not Allowed\n"⟩, [])
    ∧ uploadHandler uenv disk r2
      = (⟨405, "text/plain; charset=utf-8", "Method Not Allowed\n"⟩, disk, []) := by
  constructor
  · simp only [fileHandler, if_neg h1]
    decide
  · have h2' : ¬ r2.Method = MethodPost := h2
    simp only [uploadHandler, ne_eq, h2', not_false_eq_true, if_true]
    simp [httpError, fprint, setContentType, newWriter]

/-- Witness of C8: a DELETE of an escaping path, and a GET sent to the upload handler. -/
theorem method_gate_witness :
    fileHandler siblingEnv ⟨"DELETE", "/../etc/passwd", false, none⟩
      = (⟨405, "text/plain; charset=utf-8", "Method Not Allowed\n"⟩, [])
    ∧ uploadHandler okUploadEnv emptyDisk ⟨"GET", "/upload", false, some ([1, 2, 3], "x.txt")⟩
      = (⟨405, "text/plain; charset=utf-8", "Method Not Allowed\n"⟩, emptyDisk, []) :=
  method_gate siblingEnv okUploadEnv emptyDisk ⟨"DELETE", "/../etc/passwd", false, none⟩
    ⟨"GET", "/upload", false, some ([1, 2, 3], "x.txt")⟩ (by decide) (by decide)

/-- C9: a GET on a path that resolves to a directory whose entries `os.ReadDir` enumerates as
`files` is answered 200 with Content-Type `text/html` and the body `<ul>` + newline, one item
`<li><a href="H">c</a></li>` per entry `c` in enumeration order with `H = filepath.Join(p, c)`,
then `</ul>` + newline. The only filesystem calls are one `os.Stat` and one `os.ReadDir` of the
resolved path (no recursion), and any filesystem with the same enumeration gives the same body. -/
theorem directory_listing_body (env : FsEnv) (r : Request) (files : List DirEntry)
    (hm : r.Method = MethodGet)
    (hp : HasPrefix (Join baseDir r.URLPath) (Clean baseDir) = true)
    (hs : env.Stat (Join baseDir r.URLPath) = .ok ⟨true⟩)
    (hr : env.ReadDir (Join baseDir r.URLPath) = .ok files) :
    (fileHandler env r).1.status = 200
    ∧ (fileHandler env r).1.contentType = "text/html"
    ∧ (fileHandler env r).1.body
        = "<ul>\n" ++ String.join (files.map fun f => listItem r.URLPath f.Name) ++ "</ul>\n"
    ∧ (files.map fun f => listItem r.URLPath f.Name).length = files.length
    ∧ (fileHandler env r).2
        = [.stat (Join baseDir r.URLPath), .readDir (Join baseDir r.URLPath)]
    ∧ ∀ env2 : FsEnv, env2.Stat (Join baseDir r.URLPath) = .ok ⟨true⟩ →
        env2.ReadDir (Join baseDir r.URLPath) = .ok files →
        (fileHandler env2 r).1.body = (fileHandler env r).1.body := by
  have key : ∀ e : FsEnv, e.Stat (Join baseDir r.URLPath) = .ok ⟨true⟩ →
      e.ReadDir (Join baseDir r.URLPath) = .ok files →
      fileHandler e r
        = (fprint (writeEntries r.URLPath files (fprint (setContentType newWriter "text/html")
            "<ul>\n")) "</ul>\n",
          [.stat (Join baseDir r.URLPath), .readDir (Join baseDir r.URLPath)]) := by
    intro e h1 h2
    simp only [fileHandler, hm, hp, h1, h2, if_true, Bool.not_true]
    rfl
  have hbody : (fprint (writeEntries r.URLPath files (fprint (setContentType newWriter
      "text/html") "<ul>\n")) "</ul>\n").body
      = "<ul>\n" ++ String.join (files.map fun f => listItem r.URLPath f.Name) ++ "</ul>\n" := by
    simp only [fprint, writeEntries_body, setContentType, newWriter]
    apply String.ext
    simp [String.data_append]
  refine ⟨?_, ?_, ?_, ?_, ?_, ?_⟩
  · rw [key env hs hr]
    simp [fprint, writeEntries_status, setContentType, newWriter]
  · rw [key env hs hr]
    simp [fprint, writeEntries_contentType, setContentType, newWriter]
  · rw [key env hs hr]
    exact hbody
  · simp
  · rw [key env hs hr]
  · intro env2 h1 h2
    rw [key env hs hr, key env2 h1 h2]

/-- Witness of C9: the listing of `/docs` with the entries `a.txt` and `sub`. -/
theorem directory_listing_body_witness :
    (fileHandler dirEnv (getRequest "/docs")).1.body
      = "<ul>\n<li><a href=\"/docs/a.txt\">a.txt</a></li><li><a href=\"/docs/sub\">sub</a></li></ul>\n"
    ∧ (fileHandler dirEnv (getRequest "/docs")).2
      = [.stat "files/docs", .readDir "files/docs"] :=
  have h := directory_listing_body dirEnv (getRequest "/docs") [⟨"a.txt"⟩, ⟨"sub"⟩] rfl
    (by decide) rfl rfl
  ⟨h.2.2.1.trans (by decide), h.2.2.2.2.1.trans (by decide)⟩

/-- C5 fails as stated: `fileHandler` renders the listing of `files` for the request path
`/../files`, and the link it emits for the entry `a.txt`, `/files/a.txt`, resolves to
`files/files/a.txt`, not to the entry `files/a.txt` of the listed directory. -/
theorem link_of_climbing_path_misses_child :
    fileHandler dirEnv (getRequest "/../files")
      = (⟨200, "text/html",
          "<ul>\n<li><a href=\"/files/a.txt\">a.txt</a></li><li><a href=\"/files/sub\">sub</a></li></ul>\n"⟩,
          [.stat "files", .readDir "files"])
    ∧ Join "/../files" "a.txt" = "/files/a.txt"
    ∧ Join baseDir (Join "/../files" "a.txt") = "files/files/a.txt"
    ∧ Join (Join baseDir "/../files") "a.txt" = "files/a.txt" := by
  decide

/-- C5 as amended: for every request path `p` that is relative or whose `..` segments do not
climb above its leading separator, and every entry name `n`, the link target
`filepath.Join(p, n)` resolves to the entry `n` of the directory `p` resolves to:
`Join(baseDir, Join(p, n)) = Join(Join(baseDir, p), n)`, which is `Join(baseDir, p)`, a separator
and `n` unless `p` resolves to `.`. -/
theorem link_resolves_to_child (p n : String) (hp : climbsAboveRoot p = false)
    (hn : isEntryName n = true) :
    Join baseDir (Join p n) = Join (Join baseDir p) n
    ∧ (Join baseDir p ≠ "." → Join (Join baseDir p) n = Join baseDir p ++ "/" ++ n) := by
  have hPsep := splitOn_no_sep p.data
  have hTgood : goodState ((p.data.splitOn '/').foldl (stepSeg false) (0, [])) :=
    foldl_stepSeg_good false _ _ goodState_init hPsep
  obtain ⟨hY, hrhs⟩ := Join_resolved_entry_data p n hn
  -- the link target, resolved
  have hlhs : (Join baseDir (Join p n)).data
      = render false (stateSegs ((p.data.splitOn '/').foldl (stepSeg false)
          (0, [['f', 'i', 'l', 'e', 's']])) ++ [n.data]) := by
    have hN := foldl_stepSeg_stateSegs_append (0, [['f', 'i', 'l', 'e', 's']])
      (p.data.splitOn '/') (0, []) goodState_init hPsep
    have hnil : stateSegs (0, []) = [] := by simp [stateSegs]
    rw [hnil, List.nil_append] at hN
    rw [Join_data _ _ (by decide), Join_entry_data p n hn, foldl_stepSeg_request p hp,
      cleanChars_baseDir_render _ _ n hTgood hn, ← hN]
  constructor
  · exact String.ext (hlhs.trans hrhs.symm)
  · intro hdot
    have he : stateSegs ((p.data.splitOn '/').foldl (stepSeg false)
        (0, [['f', 'i', 'l', 'e', 's']])) ≠ [] := by
      intro he
      apply hdot
      apply String.ext
      rw [hY, he]
      decide
    apply String.ext
    rw [hrhs]
    simp only [String.data_append, hY]
    simp [render, he, joinSegs_append _ _ he, slashed]

/-- Witness of C5 as amended: the entry `a.txt` of the directory `/docs/../pub/`. -/
theorem link_resolves_to_child_witness :
    Join baseDir (Join "/docs/../pub/" "a.txt") = Join (Join baseDir "/docs/../pub/") "a.txt"
    ∧ Join (Join baseDir "/docs/../pub/") "a.txt" = Join baseDir "/docs/../pub/" ++ "/" ++ "a.txt" :=
  have h := link_resolves_to_child "/docs/../pub/" "a.txt" (by decide) (by decide)
  ⟨h.1, h.2 (by decide)⟩

/-- The amendment of C5 leaves out no path it could keep: for every request path that begins
with a separator and has a `..` segment climbing above it, and every entry name `n`, the link
target `filepath.Join(p, n)` does not resolve to the entry `n` of the directory `p` resolves
to. -/
theorem link_of_climbing_path_never_resolves (p n : String) (hp : climbsAboveRoot p = true)
    (hn : isEntryName n = true) :
    Join baseDir (Join p n) ≠ Join (Join baseDir p) n := by
  obtain ⟨_, hnsep, _, _⟩ := isEntryName_spec n hn
  have hroot : (p.data.headD '.' == '/') = true := by
    simp only [climbsAboveRoot, Bool.and_eq_true] at hp
    exact hp.1
  have hclimb : climbsAbove ([] : List (List Char)).length (p.data.splitOn '/') = true := by
    simp only [climbsAboveRoot, Bool.and_eq_true] at hp
    exact hp.2
  have hPsep := splitOn_no_sep p.data
  have hRgood : goodState ((p.data.splitOn '/').foldl (stepSeg true) (0, [])) :=
    foldl_stepSeg_good true _ _ goodState_init hPsep
  have hR0 := foldl_stepSeg_rooted (p.data.splitOn '/') (0, []) rfl
  have hSgood : goodState ((p.data.splitOn '/').foldl (stepSeg false)
      (0, [['f', 'i', 'l', 'e', 's']])) :=
    foldl_stepSeg_good false _ _ goodState_files hPsep
  obtain ⟨_, hrhs⟩ := Join_resolved_entry_data p n hn
  have hsegsR : stateSegs ((p.data.splitOn '/').foldl (stepSeg true) (0, []))
      = ((p.data.splitOn '/').foldl (stepSeg true) (0, [])).2 := by
    simp [stateSegs, hR0]
  have hlhs : (Join baseDir (Join p n)).data
      = render false ((['f', 'i', 'l', 'e', 's']
          :: ((p.data.splitOn '/').foldl (stepSeg true) (0, [])).2) ++ [n.data]) := by
    rw [Join_data _ _ (by decide), Join_entry_data p n hn, hroot,
      cleanChars_baseDir_render _ _ n hRgood hn, hsegsR,
      foldl_stepSeg_push false _ 0 [['f', 'i', 'l', 'e', 's']] hRgood]
    simp [stateSegs]
  intro heq
  have hdata := congrArg String.data heq
  rw [hlhs, hrhs] at hdata
  have hne1 : (['f', 'i', 'l', 'e', 's']
      :: ((p.data.splitOn '/').foldl (stepSeg true) (0, [])).2) ++ [n.data] ≠ [] := by simp
  have hne2 : stateSegs ((p.data.splitOn '/').foldl (stepSeg false)
      (0, [['f', 'i', 'l', 'e', 's']])) ++ [n.data] ≠ [] := by simp
  have hr1 : ∀ segs : List (List Char), segs ≠ [] → render false segs = joinSegs segs := by
    intro segs h
    simp [render, h]
  rw [hr1 _ hne1, hr1 _ hne2] at hdata
  have hsl := congrArg (fun t => '/' :: t) hdata
  simp only [← slashed_joinSegs _ hne1, ← slashed_joinSegs _ hne2] at hsl
  have hlists := slashed_inj _ _ (by
      intro s hs
      rcases List.mem_append.mp hs with hs | hs
      · rcases List.mem_cons.mp hs with rfl | hs
        · decide
        · exact (hRgood s hs).2.1
      · rw [List.mem_singleton.mp hs]; exact hnsep) (by
      intro s hs
      rcases List.mem_append.mp hs with hs | hs
      · exact stateSegs_no_sep _ hSgood s hs
      · rw [List.mem_singleton.mp hs]; exact hnsep) hsl
  have hfinal := List.append_cancel_right hlists
  exact foldl_stepSeg_climb_differs _ [] hclimb hfinal.symm

/-! ## Uploads -/

/-- C2 fails as stated: for the client filename `..` the header holds `..` and the path handed
to `os.Create` is `.`, the parent of the base directory, not a child of it; for the client
filename `.` it is `files`, the base directory itself. -/
theorem upload_of_dotdot_targets_parent :
    Base ".." = ".." ∧ dstPath ⟨".."⟩ = "."
    ∧ isChildOfRoot (dstPath ⟨".."⟩) = false
    ∧ FsOp.create "." ∈ (uploadHandler isDirEnv emptyDisk (postUpload ".." [104])).2.2
    ∧ Base "." = "." ∧ dstPath ⟨"."⟩ = "files"
    ∧ isChildOfRoot (dstPath ⟨"."⟩) = false
    ∧ FsOp.create "files" ∈ (uploadHandler isDirEnv emptyDisk (postUpload "." [104])).2.2 := by
  decide

/-- C2 as amended: for every filename whose base name is not `.`, `..` or `/`, the
destination is the cleaned base directory, a separator and the base name of the filename,
which is a non-empty name without separator: a direct child of the base directory; and it is
the only path `uploadHandler` hands to `os.Create` for a request whose `r.FormFile` returns a
header with that filename (the header holds `filepath.Base` of the client filename, whose base
name is itself). -/
theorem upload_destination_is_child (handler : FileHeader)
    (hb : Base handler.Filename ≠ "." ∧ Base handler.Filename ≠ ".."
      ∧ Base handler.Filename ≠ "/") :
    dstPath handler = Clean baseDir ++ "/" ++ Base handler.Filename
    ∧ isEntryName (Base handler.Filename) = true
    ∧ isChildOfRoot (dstPath handler) = true
    ∧ ∀ (env : UploadEnv) (disk : Disk) (r : Request) (file : List Nat),
        FormFile r = some (file, handler) →
        ∀ path, FsOp.create path ∈ (uploadHandler env disk r).2.2 → path = dstPath handler := by
  have hentry := isEntryName_Base handler.Filename hb
  have hdst : dstPath handler = Clean baseDir ++ "/" ++ Base handler.Filename :=
    Join_baseDir_entry _ hentry
  refine ⟨hdst, hentry, ?_, ?_⟩
  · rw [hdst]
    simp only [isChildOfRoot, String.data_append, List.drop_left]
    simp [hentry]
  · intro env disk r file hf path hmem
    by_cases hm : r.Method = MethodPost
    · by_cases hpf : r.parseFails = true
      · simp [uploadHandler, hm, hpf] at hmem
      · have hpf' : r.parseFails = false := by simpa using hpf
        rw [uploadHandler_of_file env disk r file handler hm hpf' hf] at hmem
        cases hc : env.Create (dstPath handler) with
        | some e =>
          simp only [hc] at hmem
          simpa using hmem
        | none =>
          simp only [hc] at hmem
          cases hk : env.copyFault with
          | some k => simp only [hk] at hmem; simpa using hmem
          | none => simp only [hk] at hmem; simpa using hmem
    · simp [uploadHandler, hm] at hmem

/-- Witness of C2 as amended: the client filename `../../evil` arrives as the header `evil`
and is stored as `files/evil`. -/
theorem upload_destination_is_child_witness :
    FormFile (postUpload "../../evil" [104]) = some ([104], ⟨"evil"⟩)
    ∧ dstPath ⟨"evil"⟩ = Clean baseDir ++ "/" ++ Base "evil"
    ∧ Clean baseDir ++ "/" ++ Base "evil" = "files/evil"
    ∧ isChildOfRoot (dstPath ⟨"evil"⟩) = true
    ∧ (uploadHandler okUploadEnv emptyDisk (postUpload "../../evil" [104])).2.2
      = [.parseMultipartForm, .formFile, .create "files/evil", .copy "files/evil"] :=
  have h := upload_destination_is_child ⟨"evil"⟩ (by decide)
  ⟨by decide, h.1, by decide, h.2.2.1, by decide⟩

/-- C3 fails as stated: the upload of a file named `..`, on a filesystem where `os.Create`
fails on directories, is answered 500, not 400, after `os.Create` was called on `.`. -/
theorem reserved_name_answered_500 :
    Base ".." = ".."
    ∧ (uploadHandler isDirEnv emptyDisk (postUpload ".." [104])).1 = internalServerError
    ∧ (uploadHandler isDirEnv emptyDisk (postUpload ".." [104])).2.2
      = [.parseMultipartForm, .formFile, .create "."] := by
  decide

/-- C3 as amended: when the form parses and holds the part `file`, an empty client filename is
answered 400 Bad Request with no call of `os.Create` and the disk unchanged (`r.FormFile`
fails). A client filename that reduces to `.`, `..` or `/` is not answered 400: `os.Create` is
called on `files` (for `.` and `/`) or on `.` (for `..`), no other path of the disk changes,
and when that call fails, as it does on a directory, the answer is 500 Internal Server Error
and no file is created or truncated. -/
theorem reserved_name_handling (env : UploadEnv) (disk : Disk) (r : Request)
    (content : List Nat) (f : String) (hm : r.Method = MethodPost)
    (hpf : r.parseFails = false) (hpart : r.filePart = some (content, f)) :
    (f = "" →
      uploadHandler env disk r
        = (⟨400, "text/plain; charset=utf-8", "Bad Request\n"⟩, disk,
            [.parseMultipartForm, .formFile]))
    ∧ (f ≠ "" → (Base f = "." ∨ Base f = ".." ∨ Base f = "/") →
        (uploadHandler env disk r).1.status ≠ 400
        ∧ (Base f ≠ ".." → Join baseDir (Base f) = "files")
        ∧ (Base f = ".." → Join baseDir (Base f) = ".")
        ∧ FsOp.create (Join baseDir (Base f)) ∈ (uploadHandler env disk r).2.2
        ∧ (∀ path, FsOp.create path ∈ (uploadHandler env disk r).2.2 →
            path = Join baseDir (Base f))
        ∧ (∀ path, path ≠ Join baseDir (Base f) →
            (uploadHandler env disk r).2.1 path = disk path)
        ∧ (env.Create (Join baseDir (Base f)) ≠ none →
            uploadHandler env disk r
              = (internalServerError, disk,
                  [.parseMultipartForm, .formFile, .create (Join baseDir (Base f))]))) := by
  constructor
  · intro hf
    have hnone : FormFile r = none := by simp [FormFile, hpart, hf]
    simp only [uploadHandler, hm, hpf, hnone, ne_eq, not_true_eq_false, if_false,
      Bool.false_eq_true]
    rfl
  · intro hf hb
    have hdst : dstPath ⟨Base f⟩ = Join baseDir (Base f) := by
      simp only [dstPath, Base_idem]
    have hrun := uploadHandler_of_file env disk r content ⟨Base f⟩ hm hpf
      (FormFile_of_part r content f hpart hf)
    rw [hdst] at hrun
    refine ⟨?_, ?_, ?_, ?_, ?_, ?_, ?_⟩
    · rw [hrun]
      cases env.Create (Join baseDir (Base f)) with
      | some e => simp [internalServerError]
      | none =>
        cases env.copyFault with
        | some k => simp [internalServerError]
        | none => simp
    · intro hne
      rcases hb with hb | hb | hb
      · rw [hb]; decide
      · exact absurd hb hne
      · rw [hb]; decide
    · intro hb'
      rw [hb']; decide
    · rw [hrun]
      cases env.Create (Join baseDir (Base f)) with
      | some e => simp
      | none =>
        cases env.copyFault with
        | some k => simp
        | none => simp
    · intro path hmem
      rw [hrun] at hmem
      cases hc : env.Create (Join baseDir (Base f)) with
      | some e =>
        simp only [hc] at hmem
        simpa using hmem
      | none =>
        simp only [hc] at hmem
        cases hk : env.copyFault with
        | some k => simp only [hk] at hmem; simpa using hmem
        | none => simp only [hk] at hmem; simpa using hmem
    · intro path hpath
      rw [hrun]
      cases env.Create (Join baseDir (Base f)) with
      | some e => rfl
      | none =>
        cases env.copyFault with
        | some k => simp [Function.update, hpath]
        | none => simp [Function.update, hpath]
    · intro hc
      rw [hrun]
      cases hc' : env.Create (Join baseDir (Base f)) with
      | none => exact absurd hc' hc
      | some e => rfl

/-- Witness of C3 as amended: the upload of a file with an empty filename, and of a file named
`..` where `os.Create` fails on directories. -/
theorem reserved_name_handling_witness :
    uploadHandler isDirEnv emptyDisk (postUpload "" [104])
      = (⟨400, "text/plain; charset=utf-8", "Bad Request\n"⟩, emptyDisk,
          [.parseMultipartForm, .formFile])
    ∧ (uploadHandler isDirEnv emptyDisk (postUpload ".." [104])).1.status ≠ 400
    ∧ Join baseDir (Base "..") = "."
    ∧ uploadHandler isDirEnv emptyDisk (postUpload ".." [104])
      = (internalServerError, emptyDisk,
          [.parseMultipartForm, .formFile, .create (Join baseDir (Base ".."))]) :=
  have h0 := reserved_name_handling isDirEnv emptyDisk (postUpload "" [104]) [104] ""
    rfl rfl rfl
  have h := (reserved_name_handling isDirEnv emptyDisk (postUpload ".." [104]) [104] ".."
    rfl rfl rfl).2 (by decide) (Or.inr (Or.inl (by decide)))
  ⟨h0.1 rfl, h.1, h.2.2.1 (by decide), h.2.2.2.2.2.2 (by decide)⟩

/-- C4 fails as stated: when `os.Create` succeeds and `io.Copy` fails after one byte, the
answer is 500 and the destination `files/x.txt` is still on disk, holding that one byte. -/
theorem copy_failure_leaves_partial_file :
    (uploadHandler copyFaultEnv emptyDisk (postUpload "x.txt" [104, 105, 10])).1.status = 500
    ∧ (uploadHandler copyFaultEnv emptyDisk (postUpload "x.txt" [104, 105, 10])).2.1
        "files/x.txt" = some [104]
    ∧ (uploadHandler copyFaultEnv emptyDisk (postUpload "x.txt" [104, 105, 10])).2.2
      = [.parseMultipartForm, .formFile, .create "files/x.txt", .copy "files/x.txt"] := by
  decide

/-- C4 as amended: a request answered 405 or 400, or 500 because `os.Create` failed, leaves
the disk as it was, with no call of `os.Create`, or none that succeeded. When `os.Create`
succeeds and `io.Copy` fails after `k` bytes, the answer is 500 and nothing is removed: the
destination stays on disk with the first `k` bytes of the upload, and `io.Copy` is the last
call made. -/
theorem upload_error_effects (env : UploadEnv) (disk : Disk) (r : Request) :
    (((uploadHandler env disk r).1.status = 405 ∨ (uploadHandler env disk r).1.status = 400) →
        (uploadHandler env disk r).2.1 = disk
        ∧ ∀ path, FsOp.create path ∉ (uploadHandler env disk r).2.2)
    ∧ ∀ file handler, r.Method = MethodPost → r.parseFails = false →
        FormFile r = some (file, handler) →
        (env.Create (dstPath handler) ≠ none →
          (uploadHandler env disk r).1 = internalServerError
          ∧ (uploadHandler env disk r).2.1 = disk)
        ∧ ∀ k, env.Create (dstPath handler) = none → env.copyFault = some k →
          (uploadHandler env disk r).1 = internalServerError
          ∧ (uploadHandler env disk r).2.1 (dstPath handler) = some (file.take k)
          ∧ (uploadHandler env disk r).2.2.getLast? = some (.copy (dstPath handler)) := by
  constructor
  · intro hst
    by_cases hm : r.Method = MethodPost
    · by_cases hpf : r.parseFails = true
      · simp [uploadHandler, hm, hpf]
      · have hpf' : r.parseFails = false := by simpa using hpf
        cases hf : FormFile r with
        | none => simp [uploadHandler, hm, hpf, hf]
        | some fh =>
          obtain ⟨file, handler⟩ := fh
          rw [uploadHandler_of_file env disk r file handler hm hpf' hf] at hst ⊢
          cases hc : env.Create (dstPath handler) with
          | some e =>
            simp only [hc] at hst
            simp [internalServerError] at hst
          | none =>
            simp only [hc] at hst
            cases hk : env.copyFault with
            | some k =>
              simp only [hk] at hst
              simp [internalServerError] at hst
            | none =>
              simp only [hk] at hst
              simp at hst
    · simp [uploadHandler, hm]
  · intro file handler hm hpf hf
    rw [uploadHandler_of_file env disk r file handler hm hpf hf]
    refine ⟨?_, ?_⟩
    · intro hc
      cases hc' : env.Create (dstPath handler) with
      | none => exact absurd hc' hc
      | some e => exact ⟨rfl, rfl⟩
    · intro k hc hk
      simp only [hc, hk]
      refine ⟨trivial, ?_, ?_⟩
      · simp
      · simp

/-- Witness of C4 as amended: the upload of `x.txt` whose copy fails after one byte. -/
theorem upload_error_effects_witness :
    (uploadHandler copyFaultEnv emptyDisk (postUpload "x.txt" [104, 105, 10])).1
      = internalServerError
    ∧ (uploadHandler copyFaultEnv emptyDisk (postUpload "x.txt" [104, 105, 10])).2.1
        (dstPath ⟨"x.txt"⟩) = some [104]
    ∧ (uploadHandler copyFaultEnv emptyDisk (postUpload "x.txt" [104, 105, 10])).2.2.getLast?
      = some (.copy (dstPath ⟨"x.txt"⟩)) :=
  ((upload_error_effects copyFaultEnv emptyDisk (postUpload "x.txt" [104, 105, 10])).2
    [104, 105, 10] ⟨"x.txt"⟩ rfl rfl (by decide)).2 1 rfl rfl

/-- C10: for every POST that `uploadHandler` answers with 200, the form holds the part `file`
with a non-empty client filename `f`; the upload is stored in full at
`filepath.Join(baseDir, filepath.Base(f))`, which is `files/` followed by `filepath.Base(f)`
when that is an entry name, and the body is `File ` + `filepath.Base(f)` +
` uploaded successfully.`: it names the file as it is stored. -/
theorem upload_confirmation_names_stored_file (env : UploadEnv) (disk : Disk) (r : Request)
    (h200 : (uploadHandler env disk r).1.status = 200) :
    (∃ content f, r.filePart = some (content, f))
    ∧ ∀ content f, r.filePart = some (content, f) →
        f ≠ ""
        ∧ (uploadHandler env disk r).1
            = ⟨200, "", "File " ++ Base f ++ " uploaded successfully."⟩
        ∧ (uploadHandler env disk r).2.2
            = [.parseMultipartForm, .formFile, .create (Join baseDir (Base f)),
                .copy (Join baseDir (Base f))]
        ∧ (uploadHandler env disk r).2.1 (Join baseDir (Base f)) = some content
        ∧ (isEntryName (Base f) = true →
            Join baseDir (Base f) = Clean baseDir ++ "/" ++ Base f) := by
  have hm : r.Method = MethodPost := by
    by_contra hm
    simp [uploadHandler, hm, httpError, fprint, setContentType, newWriter] at h200
  have hpf : r.parseFails = false := by
    by_contra hpf
    have hpf' : r.parseFails = true := by simpa using hpf
    simp [uploadHandler, hm, hpf', httpError, fprint, setContentType, newWriter] at h200
  have hsome : ∃ file handler, FormFile r = some (file, handler) := by
    cases hf : FormFile r with
    | none =>
      simp [uploadHandler, hm, hpf, hf, httpError, fprint, setContentType, newWriter] at h200
    | some fh => exact ⟨fh.1, fh.2, rfl⟩
  constructor
  · obtain ⟨file, handler, hf⟩ := hsome
    cases hpart : r.filePart with
    | none => simp [FormFile, hpart] at hf
    | some cf => exact ⟨cf.1, cf.2, rfl⟩
  · intro content f hpart
    have hf : f ≠ "" := by
      intro hf
      obtain ⟨file, handler, hff⟩ := hsome
      simp [FormFile, hpart, hf] at hff
    have hdst : dstPath ⟨Base f⟩ = Join baseDir (Base f) := by
      simp only [dstPath, Base_idem]
    have hrun := uploadHandler_of_file env disk r content ⟨Base f⟩ hm hpf
      (FormFile_of_part r content f hpart hf)
    rw [hdst] at hrun
    rw [hrun] at h200 ⊢
    cases hc : env.Create (Join baseDir (Base f)) with
    | some e =>
      simp only [hc] at h200
      simp [internalServerError] at h200
    | none =>
      simp only [hc] at h200 ⊢
      cases hk : env.copyFault with
      | some k =>
        simp only [hk] at h200
        simp [internalServerError] at h200
      | none =>
        refine ⟨hf, rfl, rfl, ?_, ?_⟩
        · simp
        · intro he
          exact Join_baseDir_entry _ he

/-- Witness of C10: the upload of a file the client names `../x.txt` is stored as
`files/x.txt` and the body names `x.txt`. -/
theorem upload_confirmation_names_stored_file_witness :
    (uploadHandler okUploadEnv emptyDisk (postUpload "../x.txt" [104, 105, 10])).1
      = ⟨200, "", "File x.txt uploaded successfully."⟩
    ∧ (uploadHandler okUploadEnv emptyDisk (postUpload "../x.txt" [104, 105, 10])).2.2
      = [.parseMultipartForm, .formFile, .create "files/x.txt", .copy "files/x.txt"]
    ∧ (uploadHandler okUploadEnv emptyDisk (postUpload "../x.txt" [104, 105, 10])).2.1
        "files/x.txt" = some [104, 105, 10] :=
  have h := (upload_confirmation_names_stored_file okUploadEnv emptyDisk
    (postUpload "../x.txt" [104, 105, 10]) (by decide)).2 [104, 105, 10] "../x.txt" rfl
  have hj : Join baseDir (Base "../x.txt") = "files/x.txt" := by decide
  ⟨h.2.1.trans (by decide), h.2.2.1.trans (by decide), hj ▸ h.2.2.2.1⟩

end Http3Server
